import Mathlib

/-!
The package go-perf, a call-site profiler.

Shallow embedding of `src/perf/perf.go` and the properties of its registry,
interval tracker and reporter.

Modelling conventions.

* The package variable `context *Context` is an `Option Context`: `none` is the nil
  pointer before `Init`, `some c` an initialised context.
* A panic is the `Except.error` result; it carries the package variable as the panicking
  call leaves it.
* `runtime.Caller(1)` and `time.Now().UnixNano()` are inputs of the embedded functions.
* `int64` arithmetic (`timeSpent`) wraps into `[-2^63, 2^63)`, `uint64` arithmetic
  (`hits`) wraps modulo `2^64`, and `int` (`handleCount`) is taken as 64 bits wide.
* `map[Callsite]Handle` is an association list with unique keys, new keys appended;
  the three maps keyed by `Handle` are functions into `Option`, `none` being an absent key.
* `sort.Sort` belongs to the standard library.  It is a function that reaches the table
  only through the methods `Len`, `Less` and `Swap` of `TimedCallsites` (`SortFn`), bound
  by its documented contract (`SortContract`); the insertion sort of the library
  (`sortInsertion`) is proved to meet that contract.
-/

namespace Perf

/-! ## Machine integers -/

/-- Value of an `int64` expression: reduction into `[-2^63, 2^63)` modulo `2^64`. -/
def wrapInt64 (x : Int) : Int := (x + 2 ^ 63) % 2 ^ 64 - 2 ^ 63

/-- Value of a `uint64` expression: reduction modulo `2^64`. -/
def wrapUint64 (n : Nat) : Nat := n % 2 ^ 64

/-- Value of an `int` expression on a 64-bit target. -/
def wrapInt (x : Int) : Int := wrapInt64 x

/-- Range of the `int64` values. -/
def isInt64 (x : Int) : Prop := -(2 ^ 63) ≤ x ∧ x < 2 ^ 63

instance (x : Int) : Decidable (isInt64 x) := by
  unfold isInt64; exact inferInstance

/-! ## Data model -/

/-- The struct `Callsite`: `pc uintptr`, `file string`, `line int`. -/
structure Callsite where
  pc : Nat
  file : String
  line : Int
  deriving DecidableEq, Repr

/-- The type `Handle`, a Go `int`. -/
abbrev Handle := Int

/-- The struct `Context`. -/
structure Context where
  handleCount : Int
  handles : List (Callsite × Handle)
  hits : Handle → Option Nat
  timeSpent : Handle → Option Int
  entryTime : Handle → Option (List Int)

/-- The panics the package can raise. -/
inductive PerfPanic where
  | unableToIdentifyCaller
  | nilPointer
  | sliceBounds
  | indexOutOfRange
  deriving DecidableEq, Repr

/-- A panic, with the package variable as the panicking call leaves it. -/
structure Panicked where
  panic : PerfPanic
  context : Option Context

/-- Comma-ok read `m[k]` of the registry map. -/
def mapLookup (m : List (Callsite × Handle)) (k : Callsite) : Option Handle :=
  match m with
  | [] => none
  | (k1, v) :: rest => if k1 = k then some v else mapLookup rest k

/-- Write `m[k] = v` of the registry map: a present key keeps its place and gets the new
value, an absent key is added. -/
def mapStore (m : List (Callsite × Handle)) (k : Callsite) (v : Handle) :
    List (Callsite × Handle) :=
  match m with
  | [] => [(k, v)]
  | (k1, v1) :: rest => if k1 = k then (k1, v) :: rest else (k1, v1) :: mapStore rest k v

/-- Write `m[h] = v` of a map keyed by `Handle`. -/
def store {V : Type} (m : Handle → Option V) (h : Handle) (v : V) : Handle → Option V :=
  fun k => if k = h then some v else m k

/-- The function `Init`: the value the package variable points to afterwards. -/
def Init : Context :=
  { handleCount := 0
    handles := []
    hits := fun _ => none
    timeSpent := fun _ => none
    entryTime := fun _ => none }

/-- The struct `TimedCallsite`; `callsite` is the embedded `Callsite`. -/
structure TimedCallsite where
  callsite : Callsite
  hits : Nat
  timeSpent : Int
  deriving DecidableEq, Repr

/-- The zero value `make` fills a fresh `TimedCallsites` with. -/
def TimedCallsite.zero : TimedCallsite := ⟨⟨0, "", 0⟩, 0, 0⟩

/-- The slice type `TimedCallsites`. -/
abbrev TimedCallsites := List TimedCallsite

/-- The interface `sort.Interface` of the standard library, over a collection of type `α`.
A method that indexes the collection panics when an index is out of range. -/
structure Interface (α : Type) where
  /-- The method `Len`: the number of elements. -/
  Len : α → Int
  /-- The method `Less`: whether the element with index `i` must sort before the element with
  index `j`. -/
  Less : α → Int → Int → Except PerfPanic Bool
  /-- The method `Swap`: the collection after the elements with indexes `i` and `j` have
  changed places. -/
  Swap : α → Int → Int → Except PerfPanic α

/-- The index expression `t[i]`, which panics when `i` is out of range. -/
def TimedCallsites.index (t : TimedCallsites) (i : Int) : Except PerfPanic TimedCallsite :=
  if i < 0 then .error .indexOutOfRange
  else
    match t[i.toNat]? with
    | none => .error .indexOutOfRange
    | some e => .ok e

/-- The method `Len`. -/
def TimedCallsites.Len (t : TimedCallsites) : Int := t.length

/-- The method `Less`: `t[i].timeSpent > t[j].timeSpent`. -/
def TimedCallsites.Less (t : TimedCallsites) (i j : Int) : Except PerfPanic Bool :=
  match t.index i with
  | .error e => .error e
  | .ok a =>
    match t.index j with
    | .error e => .error e
    | .ok b => .ok (decide (a.timeSpent > b.timeSpent))

/-- The method `Swap`: `t[j], t[i] = t[i], t[j]`.  Both operands on the right are evaluated,
then `t[j]` and `t[i]` are assigned in this order. -/
def TimedCallsites.Swap (t : TimedCallsites) (i j : Int) : Except PerfPanic TimedCallsites :=
  match t.index i with
  | .error e => .error e
  | .ok a =>
    match t.index j with
    | .error e => .error e
    | .ok b => .ok ((t.set j.toNat a).set i.toNat b)

/-- The type `TimedCallsites` as the `sort.Interface` that `Finalize` passes to `sort.Sort`. -/
def TimedCallsites.sortInterface : Interface TimedCallsites :=
  ⟨TimedCallsites.Len, TimedCallsites.Less, TimedCallsites.Swap⟩

/-- What the documentation of `sort.Interface` requires of an implementation, for elements
`view a` of the collection `a` and the order `lt` on elements: `Len` is the number of
elements; on indexes in range `Less` returns normally and compares the two elements, `Swap`
returns normally and exchanges them; and `lt` is a transitive ordering: nothing is less than
itself, if `x` is less than `y` and `y` less than `z` then `x` is less than `z`, and if `x`
is not less than `y` and `y` not less than `z` then `x` is not less than `z`. -/
structure Interface.Lawful {α β : Type} (I : Interface α) (view : α → List β)
    (lt : β → β → Bool) : Prop where
  len : ∀ a : α, I.Len a = ((view a).length : Int)
  less : ∀ (a : α) (i j : Nat) (x y : β), (view a)[i]? = some x → (view a)[j]? = some y →
    I.Less a (i : Int) (j : Int) = .ok (lt x y)
  swap : ∀ (a : α) (i j : Nat) (x y : β), (view a)[i]? = some x → (view a)[j]? = some y →
    ∃ a1, I.Swap a (i : Int) (j : Int) = .ok a1 ∧ view a1 = ((view a).set j x).set i y
  irrefl : ∀ x : β, lt x x = false
  trans : ∀ x y z : β, lt x y = true → lt y z = true → lt x z = true
  negTrans : ∀ x y z : β, lt x y = false → lt y z = false → lt x z = false

/-- A sorting function of the library: it reaches the collection through the methods of the
interface only, and panics when a method does. -/
def SortFn : Type 1 := (α : Type) → Interface α → α → Except PerfPanic α

/-- What `sort.Sort` of the standard library guarantees when the interface it is given meets
its requirements: it returns normally, the elements of the collection are those it had
before, and no later element is `Less` than an earlier one.  The order of elements that are
not `Less` than each other is left open (the sort is not stable). -/
def SortContract (sortSort : SortFn) : Prop :=
  ∀ (α β : Type) (I : Interface α) (view : α → List β) (lt : β → β → Bool),
    I.Lawful view lt → ∀ a : α, ∃ a1, sortSort α I a = .ok a1 ∧ (view a1).Perm (view a) ∧
      ∀ i j : Nat, i < j → (j : Int) < I.Len a1 → I.Less a1 (j : Int) (i : Int) = .ok false

/-- The inner loop of the library function `insertionSort(data, a, b)`, entered with
`j = a + k`: while `j > a && data.Less(j, j-1)`, do `data.Swap(j, j-1)` and `j--`. -/
def insertionInner {α : Type} (I : Interface α) (a : Int) : Nat → α → Except PerfPanic α
  | 0, data => .ok data
  | k + 1, data =>
    match I.Less data (a + (k + 1 : Nat)) (a + (k + 1 : Nat) - 1) with
    | .error e => .error e
    | .ok false => .ok data
    | .ok true =>
      match I.Swap data (a + (k + 1 : Nat)) (a + (k + 1 : Nat) - 1) with
      | .error e => .error e
      | .ok data1 => insertionInner I a k data1

/-- The outer loop of `insertionSort(data, a, b)`, `for i := a + 1; i < b; i++`, entered at
`i` with `n` iterations to go. -/
def insertionOuter {α : Type} (I : Interface α) (a : Int) : Nat → Int → α → Except PerfPanic α
  | 0, _, data => .ok data
  | n + 1, i, data =>
    match insertionInner I a (i - a).toNat data with
    | .error e => .error e
    | .ok data1 => insertionOuter I a n (i + 1) data1

/-- The library function `insertionSort(data, a, b)`: sorts `data[a:b]` by insertion. -/
def insertionSortData {α : Type} (I : Interface α) (data : α) (a b : Int) :
    Except PerfPanic α :=
  insertionOuter I a (b - (a + 1)).toNat (a + 1) data

/-- A sort of the library: `n := data.Len()` and insertion sort of `data[0:n]`, which is
what `sort.Sort` runs on a short collection (at most 12 elements in its pattern-defeating
quicksort). -/
def sortInsertion : SortFn := fun _ I data => insertionSortData I data 0 (I.Len data)

/-- The slice that `sort.Sort(t)` leaves in `t` when it sorts by insertion through `Len`,
`Less` and `Swap`; on a longer slice `sort.Sort` may leave entries of equal `timeSpent` in
another order.  The sort returns normally on every slice (`insertionSort_returns`), so the
second case does not occur. -/
def insertionSort (t : TimedCallsites) : TimedCallsites :=
  match sortInsertion TimedCallsites TimedCallsites.sortInterface t with
  | .ok sorted => sorted
  | .error _ => t

/-- The method `HandleFromCallsite`; returns the context after the call and the handle. -/
def Context.HandleFromCallsite (c : Context) (pc : Nat) (file : String) (line : Int) :
    Context × Handle :=
  let callsite : Callsite := ⟨pc, file, line⟩
  match mapLookup c.handles callsite with
  | some handle => (c, handle)
  | none =>
    let handle : Handle := c.handleCount
    let c1 : Context := { c with handleCount := wrapInt (c.handleCount + 1) }
    ({ c1 with handles := mapStore c1.handles callsite handle }, handle)

/-- The function `Enter`.  `caller` is what `runtime.Caller(1)` reports (`none` when its
`ok` is false) and `now` the reading of `time.Now().UnixNano()`. -/
def Enter (context : Option Context) (caller : Option Callsite) (now : Int) :
    Except Panicked (Context × Handle) :=
  match caller with
  | none => .error ⟨.unableToIdentifyCaller, context⟩
  | some cs =>
    match context with
    | none => .error ⟨.nilPointer, none⟩
    | some c =>
      let r := c.HandleFromCallsite cs.pc cs.file cs.line
      let handle := r.2
      let c1 : Context :=
        { r.1 with hits := store r.1.hits handle (wrapUint64 ((r.1.hits handle).getD 0 + 1)) }
      let c2 : Context :=
        { c1 with entryTime := store c1.entryTime handle ((c1.entryTime handle).getD [] ++ [now]) }
      .ok (c2, handle)

/-- The function `Exit`; `now` is the reading of `time.Now().UnixNano()`.  The slice
expression `entryTimes[:idx]` panics for `idx = -1`, before the map is written. -/
def Exit (context : Option Context) (handle : Handle) (now : Int) : Except Panicked Context :=
  match context with
  | none => .error ⟨.nilPointer, none⟩
  | some c =>
    let entryTimes := (c.entryTime handle).getD []
    let idx : Int := (entryTimes.length : Int) - 1
    if idx < 0 then .error ⟨.sliceBounds, some c⟩
    else
      let c1 : Context := { c with entryTime := store c.entryTime handle (entryTimes.take idx.toNat) }
      match entryTimes[idx.toNat]? with
      | none => .error ⟨.indexOutOfRange, some c1⟩
      | some entryTime =>
        .ok { c1 with
          timeSpent := store c1.timeSpent handle
            (wrapInt64 ((c1.timeSpent handle).getD 0 + wrapInt64 (now - entryTime))) }

/-- The first loop of `Finalize`: one write `callsites[handle] = ...` for each entry the
map iteration `iter` yields. -/
def buildTable (c : Context) (iter : List (Callsite × Handle)) (callsites : TimedCallsites) :
    Except PerfPanic TimedCallsites :=
  match iter with
  | [] => .ok callsites
  | (callsite, handle) :: rest =>
    let hits := (c.hits handle).getD 0
    let timeSpent := (c.timeSpent handle).getD 0
    if 0 ≤ handle ∧ handle < callsites.length then
      buildTable c rest (callsites.set handle.toNat ⟨callsite, hits, timeSpent⟩)
    else .error .indexOutOfRange

/-- The function `Finalize`, up to the formatting of a line.  `iter` is the order in which
`range context.handles` yields the entries of the map (a permutation of them, chosen by the
runtime), `sortSort callsites` the slice that `sort.Sort(callsites)` leaves.  The result is
the context after the call and the entries in the order the second loop prints them. -/
def Finalize (sortSort : TimedCallsites → TimedCallsites) (context : Option Context)
    (iter : List (Callsite × Handle)) : Except Panicked (Context × TimedCallsites) :=
  match context with
  | none => .error ⟨.nilPointer, none⟩
  | some c =>
    match buildTable c iter (List.replicate c.handles.length TimedCallsite.zero) with
    | .error e => .error ⟨e, some c⟩
    | .ok callsites => .ok (c, sortSort callsites)

/-! ## Executions -/

/-- One call into the package. -/
inductive Op where
  | enter (caller : Option Callsite) (now : Int)
  | exit (handle : Handle) (now : Int)
  | finalize
  | resolve (pc : Nat) (file : String) (line : Int)
  deriving DecidableEq, Repr

/-- A handle handed out by a call: by `Enter` (`viaEnter`) or by `HandleFromCallsite`. -/
structure Resolution where
  viaEnter : Bool
  callsite : Callsite
  handle : Handle
  deriving DecidableEq, Repr

/-- Runs one call on an initialised context; a panic ends the execution. -/
def step (c : Context) (op : Op) : Except Panicked (Context × List Resolution) :=
  match op with
  | .enter caller now =>
    match Enter (some c) caller now with
    | .error e => .error e
    | .ok (c1, h) => .ok (c1, [⟨true, caller.getD ⟨0, "", 0⟩, h⟩])
  | .exit handle now =>
    match Exit (some c) handle now with
    | .error e => .error e
    | .ok c1 => .ok (c1, [])
  | .finalize =>
    match Finalize insertionSort (some c) c.handles with
    | .error e => .error e
    | .ok (c1, _) => .ok (c1, [])
  | .resolve pc file line =>
    let r := c.HandleFromCallsite pc file line
    .ok (r.1, [⟨false, ⟨pc, file, line⟩, r.2⟩])

/-- Runs a sequence of calls, every one of which returns normally, and collects the
handles handed out. -/
def runOps (c : Context) (ops : List Op) : Except Panicked (Context × List Resolution) :=
  match ops with
  | [] => .ok (c, [])
  | op :: rest =>
    match step c op with
    | .error e => .error e
    | .ok (c1, log1) =>
      match runOps c1 rest with
      | .error e => .error e
      | .ok (c2, log2) => .ok (c2, log1 ++ log2)

/-- Contexts an execution started by `Init` can be in.  A Go map holds fewer than `2^63`
keys (its length is an `int`), which bounds the registry. -/
def Reachable (c : Context) : Prop :=
  ∃ ops log, runOps Init ops = .ok (c, log) ∧ (c.handles.length : Int) < 2 ^ 63

/-- The clock reading an operation takes, if it takes one. -/
def Op.reading : Op → List Int
  | .enter _ now => [now]
  | .exit _ now => [now]
  | .finalize => []
  | .resolve _ _ _ => []

/-- Well-nested sequences of `Enter`/`Exit` pairs: empty, or a pair around a well-nested
sequence followed by a well-nested sequence.  A pair carries the readings of its `Enter`
and of its `Exit`. -/
inductive Nest where
  | done
  | pair (tEnter : Int) (inner : Nest) (tExit : Int) (rest : Nest)
  deriving DecidableEq, Repr

/-- Number of pairs. -/
def Nest.pairs : Nest → Nat
  | .done => 0
  | .pair _ inner _ rest => 1 + inner.pairs + rest.pairs

/-- Sum over the pairs of the reading of the `Exit` minus the reading of its `Enter`. -/
def Nest.total : Nest → Int
  | .done => 0
  | .pair tEnter inner tExit rest => (tExit - tEnter) + inner.total + rest.total

/-- Runs a well-nested sequence from the call site `site`: each `Exit` gets the handle its
`Enter` returned. -/
def runNest (c : Context) (site : Callsite) : Nest → Except Panicked Context
  | .done => .ok c
  | .pair tEnter inner tExit rest =>
    match Enter (some c) (some site) tEnter with
    | .error e => .error e
    | .ok (c1, h) =>
      match runNest c1 site inner with
      | .error e => .error e
      | .ok c2 =>
        match Exit (some c2) h tExit with
        | .error e => .error e
        | .ok c3 => runNest c3 site rest

/-- Number of `Enter` calls in a log that returned the handle `h`. -/
def enterCount (h : Handle) (log : List Resolution) : Nat :=
  log.countP (fun r => r.viaEnter && decide (r.handle = h))

/-- Number of `Exit(h)` calls in a sequence of calls. -/
def exitCount (h : Handle) (ops : List Op) : Nat :=
  ops.countP (fun op => match op with
    | .exit h2 _ => decide (h2 = h)
    | _ => false)

/-- The handles of a registry list are `k`, `k + 1`, ... in the order of the list. -/
def denseFrom (k : Int) : List (Callsite × Handle) → Prop
  | [] => True
  | (_, h) :: rest => h = k ∧ denseFrom (k + 1) rest

/-- The registry invariant: handles are `0, 1, ...` in the order of registration,
`handleCount` is the number of entries, and no call site is registered twice. -/
def RegistryOk (c : Context) : Prop :=
  denseFrom 0 c.handles ∧ c.handleCount = c.handles.length ∧
    (c.handles.map Prod.fst).Nodup

/-- Adds to `acc` the elements of a list that are not in it yet, in the order of their
first occurrence. -/
def firstSeenFrom (acc : List Callsite) : List Callsite → List Callsite
  | [] => acc
  | s :: rest => firstSeenFrom (if s ∈ acc then acc else acc ++ [s]) rest

/-- The distinct elements of a list in the order of their first occurrence. -/
def firstSeen (l : List Callsite) : List Callsite := firstSeenFrom [] l

/-- The clock readings of a sequence of calls, in the order they are taken. -/
def readings : List Op → List Int
  | [] => []
  | op :: rest => op.reading ++ readings rest

/-- The entry the first loop of `Finalize` builds for an entry of the registry. -/
def timed (c : Context) (e : Callsite × Handle) : TimedCallsite :=
  ⟨e.1, (c.hits e.2).getD 0, (c.timeSpent e.2).getD 0⟩

/-- The calls of a well-nested sequence in the order they are made: `(true, t)` is an
`Enter` reading `t`, `(false, t)` an `Exit` reading `t`. -/
def Nest.events : Nest → List (Bool × Int)
  | .done => []
  | .pair tEnter inner tExit rest =>
    (true, tEnter) :: (inner.events ++ (false, tExit) :: rest.events)

/-- A sequence of `Enter` and `Exit` calls is balanced from depth `d`: no `Exit` comes
without an open `Enter`, and `d` more `Exit` than `Enter` calls are made in all. -/
def balancedFrom : Nat → List (Bool × Int) → Bool
  | d, [] => d == 0
  | d, (true, _) :: rest => balancedFrom (d + 1) rest
  | 0, (false, _) :: _ => false
  | d + 1, (false, _) :: rest => balancedFrom d rest

/-- The calls still to come when `d` pairs are open: for each of them its `Exit` and a
well-nested sequence after it. -/
def closers : List (Int × Nest) → List (Bool × Int)
  | [] => []
  | (t, n) :: rest => (false, t) :: (n.events ++ closers rest)

/-- Runs a sequence of `Enter` and `Exit` calls made from the call site `site`.  `pending`
holds the handles the open `Enter` calls returned, the latest first; an `Exit` is called
with the handle of the latest open `Enter`.  A sequence with an `Exit` and no open `Enter`
is not a run of such a program and is reported as the panic of `Exit` on an empty stack. -/
def runEvents (c : Context) (site : Callsite) (pending : List Handle) :
    List (Bool × Int) → Except Panicked Context
  | [] => .ok c
  | (true, t) :: rest =>
    match Enter (some c) (some site) t with
    | .error e => .error e
    | .ok (c1, h) => runEvents c1 site (h :: pending) rest
  | (false, t) :: rest =>
    match pending with
    | [] => .error ⟨.sliceBounds, some c⟩
    | h :: pending1 =>
      match Exit (some c) h t with
      | .error e => .error e
      | .ok c1 => runEvents c1 site pending1 rest

/-- The calls among `op` that concern the handle `h`, given the handles `log1` the call
handed out: an `Enter` that returned `h` is `(true, now)`, an `Exit(h)` is `(false, now)`. -/
def opEvents (h : Handle) (op : Op) (log1 : List Resolution) : List (Bool × Int) :=
  match op with
  | .enter _ now => if enterCount h log1 = 0 then [] else [(true, now)]
  | .exit k now => if k = h then [(false, now)] else []
  | .finalize => []
  | .resolve _ _ _ => []

/-- The calls of an execution that concern the handle `h`, in the order they are made. -/
def eventsOf (h : Handle) : Context → List Op → List (Bool × Int)
  | _, [] => []
  | c, op :: rest =>
    match step c op with
    | .error _ => []
    | .ok (c1, log1) => opEvents h op log1 ++ eventsOf h c1 rest

/-- What a sequence of `Enter` and `Exit` calls does to one stack and one accumulated time:
`Enter` appends its reading, `Exit` removes the last timestamp `e` and adds `now - e`. -/
def replay : List Int × Int → List (Bool × Int) → List Int × Int
  | s, [] => s
  | (st, t), (true, now) :: rest => replay (st ++ [now], t) rest
  | (st, t), (false, now) :: rest =>
    replay (st.dropLast, wrapInt64 (t + wrapInt64 (now - st.getLastD 0))) rest

/-- The package-level calls `Enter`, `Exit` and `Finalize`, as opposed to a direct call of
the method `HandleFromCallsite`. -/
def Op.isPackageLevel : Op → Bool
  | .enter _ _ => true
  | .exit _ _ => true
  | .finalize => true
  | .resolve _ _ _ => false

/-! ## Arithmetic and map lemmas -/

theorem wrapInt64_of_isInt64 {x : Int} (h : isInt64 x) : wrapInt64 x = x := by
  unfold isInt64 at h; unfold wrapInt64; omega

theorem isInt64_wrapInt64 (x : Int) : isInt64 (wrapInt64 x) := by
  unfold isInt64 wrapInt64; omega

theorem wrapInt64_add_wrapInt64 (a b : Int) : wrapInt64 (a + wrapInt64 b) = wrapInt64 (a + b) := by
  unfold wrapInt64; omega

theorem wrapInt64_wrapInt64_add (a b : Int) : wrapInt64 (wrapInt64 a + b) = wrapInt64 (a + b) := by
  unfold wrapInt64; omega

theorem mapLookup_mapStore_self (m : List (Callsite × Handle)) (k : Callsite) (v : Handle) :
    mapLookup (mapStore m k v) k = some v := by
  induction m with
  | nil => simp [mapStore, mapLookup]
  | cons e rest ih =>
    obtain ⟨k1, v1⟩ := e
    by_cases hk : k1 = k
    · simp [mapStore, mapLookup, hk]
    · simp [mapStore, mapLookup, hk, ih]

theorem mapLookup_mapStore_ne (m : List (Callsite × Handle)) (k k2 : Callsite) (v : Handle)
    (hne : k2 ≠ k) : mapLookup (mapStore m k v) k2 = mapLookup m k2 := by
  induction m with
  | nil => simp [mapStore, mapLookup, Ne.symm hne]
  | cons e rest ih =>
    obtain ⟨k1, v1⟩ := e
    by_cases hk : k1 = k
    · subst hk
      simp [mapStore, mapLookup, Ne.symm hne]
    · by_cases hk2 : k1 = k2
      · subst hk2
        simp [mapStore, mapLookup, hk]
      · simp [mapStore, mapLookup, hk, hk2, ih]

theorem mapStore_of_lookup_none (m : List (Callsite × Handle)) (k : Callsite) (v : Handle)
    (h : mapLookup m k = none) : mapStore m k v = m ++ [(k, v)] := by
  induction m with
  | nil => simp [mapStore]
  | cons e rest ih =>
    obtain ⟨k1, v1⟩ := e
    by_cases hk : k1 = k
    · simp [mapLookup, hk] at h
    · simp [mapLookup, hk] at h
      simp [mapStore, hk, ih h]

/-! ## The operations, call by call -/

theorem hfc_registered (c : Context) (s : Callsite) (h : Handle)
    (hl : mapLookup c.handles s = some h) :
    c.HandleFromCallsite s.pc s.file s.line = (c, h) := by
  simp [Context.HandleFromCallsite, hl]

theorem hfc_fresh (c : Context) (s : Callsite) (hl : mapLookup c.handles s = none) :
    c.HandleFromCallsite s.pc s.file s.line =
      ({ c with handleCount := wrapInt (c.handleCount + 1),
                handles := mapStore c.handles s c.handleCount }, c.handleCount) := by
  simp [Context.HandleFromCallsite, hl]

theorem hfc_frame (c : Context) (s : Callsite) :
    (c.HandleFromCallsite s.pc s.file s.line).1.hits = c.hits ∧
    (c.HandleFromCallsite s.pc s.file s.line).1.timeSpent = c.timeSpent ∧
    (c.HandleFromCallsite s.pc s.file s.line).1.entryTime = c.entryTime := by
  cases hl : mapLookup c.handles s with
  | none => simp [hfc_fresh c s hl]
  | some h => simp [hfc_registered c s h hl]

theorem hfc_lookup_self (c : Context) (s : Callsite) :
    mapLookup (c.HandleFromCallsite s.pc s.file s.line).1.handles s =
      some (c.HandleFromCallsite s.pc s.file s.line).2 := by
  cases hl : mapLookup c.handles s with
  | none => simp [hfc_fresh c s hl, mapLookup_mapStore_self]
  | some h => simp [hfc_registered c s h hl, hl]

theorem hfc_lookup_stable (c : Context) (s s2 : Callsite) (h2 : Handle)
    (hl2 : mapLookup c.handles s2 = some h2) :
    mapLookup (c.HandleFromCallsite s.pc s.file s.line).1.handles s2 = some h2 := by
  cases hl : mapLookup c.handles s with
  | none =>
    have hne : s2 ≠ s := by
      intro heq; subst heq; rw [hl] at hl2; cases hl2
    simp [hfc_fresh c s hl, mapLookup_mapStore_ne _ _ _ _ hne, hl2]
  | some h => simp [hfc_registered c s h hl, hl2]

theorem Enter_spec (c : Context) (s : Callsite) (now : Int) :
    ∃ c1, Enter (some c) (some s) now = .ok (c1, (c.HandleFromCallsite s.pc s.file s.line).2) ∧
      c1.handleCount = (c.HandleFromCallsite s.pc s.file s.line).1.handleCount ∧
      c1.handles = (c.HandleFromCallsite s.pc s.file s.line).1.handles ∧
      c1.hits = store c.hits (c.HandleFromCallsite s.pc s.file s.line).2
        (wrapUint64 ((c.hits (c.HandleFromCallsite s.pc s.file s.line).2).getD 0 + 1)) ∧
      c1.timeSpent = c.timeSpent ∧
      c1.entryTime = store c.entryTime (c.HandleFromCallsite s.pc s.file s.line).2
        ((c.entryTime (c.HandleFromCallsite s.pc s.file s.line).2).getD [] ++ [now]) := by
  obtain ⟨h1, h2, h3⟩ := hfc_frame c s
  refine ⟨_, rfl, rfl, rfl, ?_, ?_, ?_⟩
  · simp only [h1]
  · simp only [h2]
  · simp only [h3]

theorem Exit_spec_err (c : Context) (h : Handle) (now : Int)
    (hst : (c.entryTime h).getD [] = []) :
    Exit (some c) h now = .error ⟨.sliceBounds, some c⟩ := by
  simp [Exit, hst]

theorem Exit_spec_ok (c : Context) (h : Handle) (now : Int) (st : List Int) (e : Int)
    (hst : (c.entryTime h).getD [] = st ++ [e]) :
    ∃ c1, Exit (some c) h now = .ok c1 ∧
      c1.handleCount = c.handleCount ∧ c1.handles = c.handles ∧ c1.hits = c.hits ∧
      c1.entryTime = store c.entryTime h st ∧
      c1.timeSpent = store c.timeSpent h
        (wrapInt64 ((c.timeSpent h).getD 0 + wrapInt64 (now - e))) := by
  refine ⟨{ c with entryTime := store c.entryTime h st,
                   timeSpent := store c.timeSpent h
                    (wrapInt64 ((c.timeSpent h).getD 0 + wrapInt64 (now - e))) }, ?_, rfl, rfl, rfl, rfl, rfl⟩
  simp [Exit, hst]

theorem hfc_handle_eq (c : Context) (s : Callsite) :
    (c.HandleFromCallsite s.pc s.file s.line).2 = (mapLookup c.handles s).getD c.handleCount := by
  cases hl : mapLookup c.handles s with
  | none => simp [hfc_fresh c s hl]
  | some h => simp [hfc_registered c s h hl]

theorem store_same {V : Type} (m : Handle → Option V) (h : Handle) (v : V) :
    store m h v h = some v := by
  simp [store]

theorem store_other {V : Type} (m : Handle → Option V) (h k : Handle) (v : V) (hne : k ≠ h) :
    store m h v k = m k := by
  simp [store, hne]

theorem runNest_spec (site : Callsite) (h : Handle) (n : Nest) :
    ∀ c : Context, (c.HandleFromCallsite site.pc site.file site.line).2 = h →
      (c.hits h).getD 0 < 2 ^ 64 → isInt64 ((c.timeSpent h).getD 0) →
      ∃ c1, runNest c site n = .ok c1 ∧
        (c1.HandleFromCallsite site.pc site.file site.line).2 = h ∧
        (c1.hits h).getD 0 = ((c.hits h).getD 0 + n.pairs) % 2 ^ 64 ∧
        (c1.timeSpent h).getD 0 = wrapInt64 ((c.timeSpent h).getD 0 + n.total) ∧
        (c1.entryTime h).getD [] = (c.entryTime h).getD [] := by
  induction n with
  | done =>
    intro c hh hhits htime
    refine ⟨c, rfl, hh, ?_, ?_, rfl⟩
    · simp only [Nest.pairs]; omega
    · simp [Nest.total, wrapInt64_of_isInt64 htime]
  | pair a inner b rest ihInner ihRest =>
    intro c hh hhits htime
    obtain ⟨c1, hE, hc1n, hc1h, hc1hits, hc1time, hc1stack⟩ := Enter_spec c site a
    rw [hh] at hE hc1hits hc1stack
    have hreg1 : mapLookup c1.handles site = some h := by
      rw [hc1h, hfc_lookup_self, hh]
    have hh1 : (c1.HandleFromCallsite site.pc site.file site.line).2 = h := by
      rw [hfc_registered c1 site h hreg1]
    have hhits1 : (c1.hits h).getD 0 = wrapUint64 ((c.hits h).getD 0 + 1) := by
      rw [hc1hits, store_same]; rfl
    have hlt1 : (c1.hits h).getD 0 < 2 ^ 64 := by
      rw [hhits1]; unfold wrapUint64; omega
    have htime1 : (c1.timeSpent h).getD 0 = (c.timeSpent h).getD 0 := by rw [hc1time]
    obtain ⟨c2, hR2, hh2, hhits2, htime2, hstack2⟩ :=
      ihInner c1 hh1 hlt1 (by rw [htime1]; exact htime)
    have hstack2b : (c2.entryTime h).getD [] = (c.entryTime h).getD [] ++ [a] := by
      rw [hstack2, hc1stack, store_same]; rfl
    obtain ⟨c3, hX, hc3n, hc3h, hc3hits, hc3stack, hc3time⟩ :=
      Exit_spec_ok c2 h b _ a hstack2b
    have hh3 : (c3.HandleFromCallsite site.pc site.file site.line).2 = h := by
      rw [hfc_handle_eq, hc3n, hc3h, ← hfc_handle_eq, hh2]
    have hhits3 : (c3.hits h).getD 0 = (c2.hits h).getD 0 := by rw [hc3hits]
    have hlt3 : (c3.hits h).getD 0 < 2 ^ 64 := by
      rw [hhits3, hhits2]; omega
    have htime3 : (c3.timeSpent h).getD 0 =
        wrapInt64 ((c2.timeSpent h).getD 0 + wrapInt64 (b - a)) := by
      rw [hc3time, store_same]; rfl
    obtain ⟨c4, hR4, hh4, hhits4, htime4, hstack4⟩ :=
      ihRest c3 hh3 hlt3 (by rw [htime3]; exact isInt64_wrapInt64 _)
    refine ⟨c4, ?_, hh4, ?_, ?_, ?_⟩
    · simp only [runNest, hE, hR2, hX, hR4]
    · rw [hhits4, hhits3, hhits2, hhits1]
      simp only [Nest.pairs, wrapUint64]; omega
    · rw [htime4, htime3, htime2, htime1]
      simp only [Nest.total]
      generalize (c.timeSpent h).getD 0 = t0
      generalize inner.total = x
      generalize rest.total = y
      unfold wrapInt64; omega
    · rw [hstack4, hc3stack, store_same]; rfl

/-! ## Well-nested sequences are the balanced ones -/

theorem balancedFrom_events (n : Nest) :
    ∀ (d : Nat) (rest : List (Bool × Int)),
      balancedFrom d (n.events ++ rest) = balancedFrom d rest := by
  induction n with
  | done => intro d rest; rfl
  | pair a inner b tail ihInner ihTail =>
    intro d rest
    simp only [Nest.events, List.cons_append, List.append_assoc, balancedFrom]
    rw [ihInner]
    simp only [balancedFrom]
    exact ihTail d rest

theorem balancedFrom_split (evs : List (Bool × Int)) :
    ∀ d : Nat, balancedFrom d evs = true →
      ∃ (n : Nest) (cs : List (Int × Nest)), cs.length = d ∧ evs = n.events ++ closers cs := by
  induction evs with
  | nil =>
    intro d hb
    have hd : d = 0 := by simpa [balancedFrom] using hb
    exact ⟨.done, [], hd.symm, rfl⟩
  | cons ev rest ih =>
    intro d hb
    obtain ⟨isEnter, t⟩ := ev
    cases isEnter with
    | true =>
      simp only [balancedFrom] at hb
      obtain ⟨n, cs, hlen, hrest⟩ := ih (d + 1) hb
      cases cs with
      | nil => simp at hlen
      | cons c0 cs1 =>
        obtain ⟨t1, n1⟩ := c0
        refine ⟨.pair t n t1 n1, cs1, by simpa using hlen, ?_⟩
        rw [hrest]
        simp [Nest.events, closers]
    | false =>
      cases d with
      | zero => simp [balancedFrom] at hb
      | succ d1 =>
        simp only [balancedFrom] at hb
        obtain ⟨n, cs, hlen, hrest⟩ := ih d1 hb
        refine ⟨.done, (t, n) :: cs, by simp [hlen], ?_⟩
        rw [hrest]
        simp [Nest.events, closers]

/-- The sequences of calls of the values of `Nest` are exactly the balanced sequences of
`Enter` and `Exit` calls. -/
theorem balanced_iff_nest (evs : List (Bool × Int)) :
    balancedFrom 0 evs = true ↔ ∃ n : Nest, n.events = evs := by
  constructor
  · intro hb
    obtain ⟨n, cs, hlen, hevs⟩ := balancedFrom_split evs 0 hb
    have hcs : cs = [] := List.eq_nil_of_length_eq_zero hlen
    subst hcs
    exact ⟨n, by rw [hevs]; simp [closers]⟩
  · rintro ⟨n, rfl⟩
    have := balancedFrom_events n 0 []
    rw [List.append_nil] at this
    rw [this]; rfl

theorem events_length (n : Nest) : n.events.length = 2 * n.pairs := by
  induction n with
  | done => rfl
  | pair a inner b tail ihInner ihTail =>
    simp only [Nest.events, Nest.pairs, List.length_cons, List.length_append, ihInner, ihTail]
    omega

theorem runEvents_nest (site : Callsite) (n : Nest) :
    ∀ (c : Context) (pending : List Handle) (rest : List (Bool × Int)),
      runEvents c site pending (n.events ++ rest) =
        match runNest c site n with
        | .error e => .error e
        | .ok c1 => runEvents c1 site pending rest := by
  induction n with
  | done => intro c pending rest; rfl
  | pair a inner b tail ihInner ihTail =>
    intro c pending rest
    have hl : (Nest.pair a inner b tail).events ++ rest =
        (true, a) :: (inner.events ++ ((false, b) :: (tail.events ++ rest))) := by
      simp [Nest.events]
    rw [hl]
    simp only [runEvents, runNest]
    cases hE : Enter (some c) (some site) a with
    | error e => rfl
    | ok r =>
      obtain ⟨c1, h⟩ := r
      simp only
      rw [ihInner]
      cases hI : runNest c1 site inner with
      | error e => rfl
      | ok c2 =>
        simp only [runEvents]
        cases hX : Exit (some c2) h b with
        | error e => rfl
        | ok c3 =>
          simp only
          exact ihTail c3 pending rest

theorem runEvents_eq_runNest (c : Context) (site : Callsite) (n : Nest) :
    runEvents c site [] n.events = runNest c site n := by
  have := runEvents_nest site n c [] []
  rw [List.append_nil] at this
  rw [this]
  cases runNest c site n <;> rfl

/-! ## C1: hits and time of well-nested pairs -/

/-- C1 (amended): the well-nested sequences of Enter/Exit pairs are the values of `Nest`
(their call sequences are exactly the balanced ones, and a sequence of N pairs has 2N
calls).  From a context in which the call site has no hits, no accumulated time and an empty
stack, every such sequence of N pairs made from that site runs without panic and leaves the
stack empty, the hit count equal to N modulo 2^64 and the accumulated time equal to the
int64 wrap of the sum of (Exit reading - Enter reading) over the pairs; whenever N < 2^64
the hit count is N, and whenever the sum is an int64 the accumulated time is the sum. -/
theorem C1_nested_pairs_hits_and_time (c : Context) (site : Callsite) (n : Nest)
    (hhits : (c.hits (c.HandleFromCallsite site.pc site.file site.line).2).getD 0 = 0)
    (htime : (c.timeSpent (c.HandleFromCallsite site.pc site.file site.line).2).getD 0 = 0)
    (hstack : (c.entryTime (c.HandleFromCallsite site.pc site.file site.line).2).getD [] = []) :
    (∀ evs : List (Bool × Int), balancedFrom 0 evs = true ↔ ∃ m : Nest, m.events = evs) ∧
    n.events.length = 2 * n.pairs ∧
    ∃ c1, runEvents c site [] n.events = .ok c1 ∧
      (c1.hits (c.HandleFromCallsite site.pc site.file site.line).2).getD 0
        = n.pairs % 2 ^ 64 ∧
      (c1.timeSpent (c.HandleFromCallsite site.pc site.file site.line).2).getD 0
        = wrapInt64 n.total ∧
      (c1.entryTime (c.HandleFromCallsite site.pc site.file site.line).2).getD [] = [] ∧
      (n.pairs < 2 ^ 64 →
        (c1.hits (c.HandleFromCallsite site.pc site.file site.line).2).getD 0 = n.pairs) ∧
      (isInt64 n.total →
        (c1.timeSpent (c.HandleFromCallsite site.pc site.file site.line).2).getD 0
          = n.total) := by
  obtain ⟨c1, hr, -, h1, h2, h3⟩ :=
    runNest_spec site _ n c rfl (by rw [hhits]; decide) (by rw [htime]; decide)
  rw [hhits] at h1
  rw [htime] at h2
  rw [hstack] at h3
  simp only [Nat.zero_add, Int.zero_add] at h1 h2
  refine ⟨balanced_iff_nest, events_length n, c1, ?_, h1, h2, h3, ?_, ?_⟩
  · rw [runEvents_eq_runNest, hr]
  · intro hlt
    rw [h1, Nat.mod_eq_of_lt hlt]
  · intro hfit
    rw [h2, wrapInt64_of_isInt64 hfit]

/-- Witness of C1: Enter at 1, Enter at 2, Exit at 5, Exit at 9 from one call site of the
fresh context give 2 hits and (5 - 2) + (9 - 1) = 11 nanoseconds. -/
theorem C1_nested_pairs_witness :
    ∃ c1, runEvents Init ⟨100, "a.go", 10⟩ [] [(true, 1), (true, 2), (false, 5), (false, 9)]
        = .ok c1 ∧
      (c1.hits 0).getD 0 = 2 ∧ (c1.timeSpent 0).getD 0 = 11 := by
  obtain ⟨-, -, c1, hr, -, -, -, hh, ht⟩ :=
    C1_nested_pairs_hits_and_time Init ⟨100, "a.go", 10⟩
      (.pair 1 (.pair 2 .done 5 .done) 9 .done) rfl rfl rfl
  exact ⟨c1, hr, hh (by decide), ht (by decide)⟩

/-- Counterexample to C1 as stated: Enter at 0, Enter at 0, Exit at 2^62, Exit at 2^62 from
one call site of the fresh context is well nested, its two durations sum to 2^63, and the
accumulated time is -2^63. -/
theorem C1_sum_overflow_counterexample :
    balancedFrom 0 [(true, 0), (true, 0), (false, 2 ^ 62), (false, 2 ^ 62)] = true ∧
    ∃ c1, runEvents Init ⟨100, "a.go", 10⟩ []
        [(true, 0), (true, 0), (false, 2 ^ 62), (false, 2 ^ 62)] = .ok c1 ∧
      (c1.hits 0).getD 0 = 2 ∧
      (c1.timeSpent 0).getD 0 = -(2 ^ 63) ∧
      (c1.timeSpent 0).getD 0 ≠ (2 ^ 62 - 0) + (2 ^ 62 - 0) := by
  refine ⟨by decide, _, rfl, ?_, ?_, ?_⟩ <;> decide

/-! ## Executions, step by step -/

theorem Exit_ok_inv (c c1 : Context) (h : Handle) (now : Int)
    (hx : Exit (some c) h now = .ok c1) :
    ∃ st e, (c.entryTime h).getD [] = st ++ [e] ∧
      c1.handleCount = c.handleCount ∧ c1.handles = c.handles ∧ c1.hits = c.hits ∧
      c1.entryTime = store c.entryTime h st ∧
      c1.timeSpent = store c.timeSpent h
        (wrapInt64 ((c.timeSpent h).getD 0 + wrapInt64 (now - e))) := by
  rcases List.eq_nil_or_concat ((c.entryTime h).getD []) with hnil | ⟨st, e, hst⟩
  · rw [Exit_spec_err c h now hnil] at hx; cases hx
  · rw [List.concat_eq_append] at hst
    obtain ⟨c2, hx2, r1, r2, r3, r4, r5⟩ := Exit_spec_ok c h now st e hst
    rw [hx2] at hx
    cases hx
    exact ⟨st, e, hst, r1, r2, r3, r4, r5⟩

theorem Finalize_context (sortSort : TimedCallsites → TimedCallsites) (c c1 : Context)
    (iter : List (Callsite × Handle)) (out : TimedCallsites)
    (hf : Finalize sortSort (some c) iter = .ok (c1, out)) : c1 = c := by
  unfold Finalize at hf
  simp only at hf
  split at hf
  · cases hf
  · cases hf; rfl

theorem step_cases (c c1 : Context) (op : Op) (log1 : List Resolution)
    (hs : step c op = .ok (c1, log1)) :
    (∃ s now, op = .enter (some s) now ∧
        Enter (some c) (some s) now = .ok (c1, (c.HandleFromCallsite s.pc s.file s.line).2) ∧
        log1 = [⟨true, s, (c.HandleFromCallsite s.pc s.file s.line).2⟩]) ∨
    (∃ h now, op = .exit h now ∧ Exit (some c) h now = .ok c1 ∧ log1 = []) ∨
    (op = .finalize ∧ c1 = c ∧ log1 = []) ∨
    (∃ s : Callsite, op = .resolve s.pc s.file s.line ∧
        c1 = (c.HandleFromCallsite s.pc s.file s.line).1 ∧
        log1 = [⟨false, s, (c.HandleFromCallsite s.pc s.file s.line).2⟩]) := by
  cases op with
  | enter caller now =>
    left
    cases caller with
    | none => simp [step, Enter] at hs
    | some s =>
      obtain ⟨c2, hE, -⟩ := Enter_spec c s now
      simp only [step, hE, Option.getD_some, Except.ok.injEq, Prod.mk.injEq] at hs
      obtain ⟨rfl, rfl⟩ := hs
      exact ⟨s, now, rfl, hE, rfl⟩
  | exit h now =>
    right; left
    cases hx : Exit (some c) h now with
    | error e => simp [step, hx] at hs
    | ok c2 =>
      simp only [step, hx, Except.ok.injEq, Prod.mk.injEq] at hs
      obtain ⟨rfl, rfl⟩ := hs
      exact ⟨h, now, rfl, hx, rfl⟩
  | finalize =>
    right; right; left
    cases hf : Finalize insertionSort (some c) c.handles with
    | error e => simp [step, hf] at hs
    | ok r =>
      obtain ⟨c2, out⟩ := r
      simp only [step, hf, Except.ok.injEq, Prod.mk.injEq] at hs
      obtain ⟨rfl, rfl⟩ := hs
      exact ⟨rfl, Finalize_context _ _ _ _ _ hf, rfl⟩
  | resolve pc file line =>
    right; right; right
    simp only [step, Except.ok.injEq, Prod.mk.injEq] at hs
    obtain ⟨rfl, rfl⟩ := hs
    exact ⟨⟨pc, file, line⟩, rfl, rfl, rfl⟩

theorem runOps_cons_inv (c c2 : Context) (op : Op) (rest : List Op) (log : List Resolution)
    (hr : runOps c (op :: rest) = .ok (c2, log)) :
    ∃ c1 log1 log2, step c op = .ok (c1, log1) ∧ runOps c1 rest = .ok (c2, log2) ∧
      log = log1 ++ log2 := by
  cases hs : step c op with
  | error e => simp [runOps, hs] at hr
  | ok r1 =>
    obtain ⟨c1, log1⟩ := r1
    cases hq : runOps c1 rest with
    | error e => simp [runOps, hs, hq] at hr
    | ok r2 =>
      obtain ⟨c3, log2⟩ := r2
      simp only [runOps, hs, hq, Except.ok.injEq, Prod.mk.injEq] at hr
      obtain ⟨rfl, rfl⟩ := hr
      exact ⟨c1, log1, log2, rfl, hq, rfl⟩

theorem step_stack_count (c c1 : Context) (op : Op) (log1 : List Resolution) (h : Handle)
    (hs : step c op = .ok (c1, log1)) :
    ((c1.entryTime h).getD []).length + exitCount h [op] =
      ((c.entryTime h).getD []).length + enterCount h log1 := by
  rcases step_cases c c1 op log1 hs with
    ⟨s, now, rfl, hE, rfl⟩ | ⟨h2, now, rfl, hX, rfl⟩ | ⟨rfl, rfl, rfl⟩ | ⟨s, rfl, rfl, rfl⟩
  · obtain ⟨c2, hE2, -, -, -, -, hst⟩ := Enter_spec c s now
    rw [hE2] at hE
    cases hE
    rw [hst]
    by_cases hh : h = (c.HandleFromCallsite s.pc s.file s.line).2
    · subst hh
      simp [store_same, exitCount, enterCount]
    · have hh2 : ¬ (c.HandleFromCallsite s.pc s.file s.line).2 = h := fun e => hh e.symm
      simp [store_other _ _ _ _ hh, exitCount, enterCount, hh2]
  · obtain ⟨st, e, hst, -, -, -, hst1, -⟩ := Exit_ok_inv c c1 h2 now hX
    rw [hst1]
    by_cases hh : h = h2
    · subst hh
      simp [store_same, exitCount, enterCount, hst]
    · have hh2 : ¬ h2 = h := fun e => hh e.symm
      simp [store_other _ _ _ _ hh, exitCount, enterCount, hh2]
  · simp [exitCount, enterCount]
  · simp [exitCount, enterCount, (hfc_frame c s).2.2]

theorem runOps_stack_count (h : Handle) (ops : List Op) :
    ∀ (c c2 : Context) (log : List Resolution), runOps c ops = .ok (c2, log) →
      ((c2.entryTime h).getD []).length + exitCount h ops =
        ((c.entryTime h).getD []).length + enterCount h log := by
  induction ops with
  | nil =>
    intro c c2 log hr
    simp only [runOps, Except.ok.injEq, Prod.mk.injEq] at hr
    obtain ⟨rfl, rfl⟩ := hr
    simp [exitCount, enterCount]
  | cons op rest ih =>
    intro c c2 log hr
    obtain ⟨c1, log1, log2, hs, hq, rfl⟩ := runOps_cons_inv c c2 op rest log hr
    have h1 := step_stack_count c c1 op log1 h hs
    have h2 := ih c1 c2 log2 hq
    have e1 : exitCount h (op :: rest) = exitCount h [op] + exitCount h rest := by
      simp [exitCount, List.countP_cons, Nat.add_comm]
    have e2 : enterCount h (log1 ++ log2) = enterCount h log1 + enterCount h log2 := by
      simp [enterCount, List.countP_append]
    omega

/-! ## C2: when Exit panics -/

/-- C2: on an initialised context `Exit(handle)` panics exactly when the entry-timestamp
stack of the handle is empty (absent or of length 0), and returns normally when it is not.
The panic is the one of the slice expression, raised before anything is written.  That
covers a handle no `Enter` of the execution has returned, and a second `Exit` after the
`Enter` of an empty stack was already exited. -/
theorem C2_exit_panics_iff_stack_empty (c : Context) (h : Handle) (now : Int) :
    ((∃ e, Exit (some c) h now = .error e) ↔ (c.entryTime h).getD [] = []) ∧
    ((c.entryTime h).getD [] = [] → Exit (some c) h now = .error ⟨.sliceBounds, some c⟩) ∧
    ((c.entryTime h).getD [] ≠ [] → ∃ c1, Exit (some c) h now = .ok c1) ∧
    (∀ ops log, runOps Init ops = .ok (c, log) → enterCount h log = 0 →
      Exit (some c) h now = .error ⟨.sliceBounds, some c⟩) ∧
    (∀ (s : Callsite) (t1 t2 : Int) (c1 c2 : Context), (c.entryTime h).getD [] = [] →
      Enter (some c) (some s) t1 = .ok (c1, h) → Exit (some c1) h t2 = .ok c2 →
      Exit (some c2) h now = .error ⟨.sliceBounds, some c2⟩) := by
  have hok : (c.entryTime h).getD [] ≠ [] → ∃ c1, Exit (some c) h now = .ok c1 := by
    intro hne
    rcases List.eq_nil_or_concat ((c.entryTime h).getD []) with hnil | ⟨st, e, hst⟩
    · exact absurd hnil hne
    · rw [List.concat_eq_append] at hst
      obtain ⟨c1, hx, -⟩ := Exit_spec_ok c h now st e hst
      exact ⟨c1, hx⟩
  refine ⟨⟨?_, ?_⟩, Exit_spec_err c h now, hok, ?_, ?_⟩
  · rintro ⟨e, he⟩
    by_contra hne
    obtain ⟨c1, hx⟩ := hok hne
    rw [hx] at he
    cases he
  · intro hnil
    exact ⟨_, Exit_spec_err c h now hnil⟩
  · intro ops log hr hcount
    apply Exit_spec_err
    have hc := runOps_stack_count h ops Init c log hr
    rw [hcount] at hc
    have h0 : ((Init.entryTime h).getD []).length = 0 := rfl
    rw [h0] at hc
    exact List.eq_nil_of_length_eq_zero (by omega)
  · intro s t1 t2 c1 c2 hnil hE hX
    apply Exit_spec_err
    obtain ⟨c1b, hE2, -, -, -, -, hst1⟩ := Enter_spec c s t1
    rw [hE2] at hE
    simp only [Except.ok.injEq, Prod.mk.injEq] at hE
    obtain ⟨rfl, hh⟩ := hE
    rw [hh] at hst1
    obtain ⟨st, e, hst, -, -, -, hst2, -⟩ := Exit_ok_inv c1b c2 h t2 hX
    rw [hst1, store_same, hnil] at hst
    simp only [Option.getD_some, List.nil_append] at hst
    have hst0 : st = [] := by
      cases st with
      | nil => rfl
      | cons a l =>
        have := congrArg List.length hst
        simp at this
    rw [hst2, store_same, hst0]
    rfl

/-- Witness of C2: `Exit(0)` on the fresh context panics, and after one `Enter` (which
returns handle 0) `Exit(0)` returns normally. -/
theorem C2_exit_panics_witness :
    Exit (some Init) 0 5 = .error ⟨.sliceBounds, some Init⟩ ∧
    (∃ c1 c2, Enter (some Init) (some ⟨100, "a.go", 10⟩) 1 = .ok (c1, 0) ∧
      Exit (some c1) 0 5 = .ok c2 ∧ Exit (some c2) 0 7 = .error ⟨.sliceBounds, some c2⟩) := by
  refine ⟨(C2_exit_panics_iff_stack_empty Init 0 5).2.1 rfl, ?_⟩
  obtain ⟨c1, hE, -, -, -, -, hst⟩ := Enter_spec Init ⟨100, "a.go", 10⟩ 1
  have hne : (c1.entryTime 0).getD [] ≠ [] := by
    rw [hst]; decide
  obtain ⟨c2, hX⟩ := (C2_exit_panics_iff_stack_empty c1 0 5).2.2.1 hne
  exact ⟨c1, c2, hE, hX,
    (C2_exit_panics_iff_stack_empty Init 0 7).2.2.2.2 ⟨100, "a.go", 10⟩ 1 5 c1 c2 rfl hE hX⟩

/-! ## The registry -/

theorem mapLookup_eq_none_iff (m : List (Callsite × Handle)) (k : Callsite) :
    mapLookup m k = none ↔ k ∉ m.map Prod.fst := by
  induction m with
  | nil => simp [mapLookup]
  | cons e rest ih =>
    obtain ⟨k1, v1⟩ := e
    by_cases hk : k1 = k
    · simp [mapLookup, hk]
    · have hk2 : ¬ k = k1 := fun e => hk e.symm
      simp [mapLookup, hk, hk2, ih]

theorem mapLookup_mem (m : List (Callsite × Handle)) (k : Callsite) (v : Handle)
    (h : mapLookup m k = some v) : (k, v) ∈ m := by
  induction m with
  | nil => simp [mapLookup] at h
  | cons e rest ih =>
    obtain ⟨k1, v1⟩ := e
    by_cases hk : k1 = k
    · simp [mapLookup, hk] at h
      simp [hk, h]
    · simp [mapLookup, hk] at h
      simp [ih h]

theorem denseFrom_append (m : List (Callsite × Handle)) (s : Callsite) :
    ∀ k : Int, denseFrom k m → denseFrom k (m ++ [(s, k + m.length)]) := by
  induction m with
  | nil => intro k _; simp [denseFrom]
  | cons e rest ih =>
    intro k hd
    obtain ⟨k1, v1⟩ := e
    simp only [denseFrom] at hd
    obtain ⟨h1, h2⟩ := hd
    replace h1 : @Eq Int v1 k := h1
    refine ⟨h1, ?_⟩
    have := ih (k + 1) h2
    have e1 : k + 1 + (rest.length : Int) = k + ((k1, v1) :: rest).length := by
      simp only [List.length_cons]; push_cast; ring
    rw [e1] at this
    exact this

theorem denseFrom_lookup (m : List (Callsite × Handle)) (s : Callsite) (h : Int) :
    ∀ k : Int, denseFrom k m → mapLookup m s = some h →
      h = k + ((m.map Prod.fst).indexOf s : Nat) := by
  induction m with
  | nil => intro k _ hl; simp [mapLookup] at hl
  | cons e rest ih =>
    intro k hd hl
    obtain ⟨k1, v1⟩ := e
    simp only [denseFrom] at hd
    obtain ⟨h1, h2⟩ := hd
    replace h1 : @Eq Int v1 k := h1
    by_cases hk : k1 = s
    · simp [mapLookup, hk] at hl
      subst hk
      simp [← hl, h1]
    · simp [mapLookup, hk] at hl
      have := ih (k + 1) h2 hl
      have hk2 : ¬ s = k1 := fun e => hk e.symm
      rw [List.map_cons, List.indexOf_cons_ne _ hk]
      rw [this]; push_cast; ring

theorem denseFrom_mem (m : List (Callsite × Handle)) (h : Int) :
    ∀ k : Int, denseFrom k m →
      ((∃ s, (s, h) ∈ m) ↔ (k ≤ h ∧ h < k + m.length)) := by
  induction m with
  | nil => intro k _; simp
  | cons e rest ih =>
    intro k hd
    obtain ⟨k1, v1⟩ := e
    simp only [denseFrom] at hd
    obtain ⟨h1, h2⟩ := hd
    replace h1 : @Eq Int v1 k := h1
    have := ih (k + 1) h2
    constructor
    · rintro ⟨s, hs⟩
      simp only [List.mem_cons, Prod.mk.injEq] at hs
      simp only [List.length_cons]; push_cast
      rcases hs with ⟨-, rfl⟩ | hs
      · omega
      · have := this.1 ⟨s, hs⟩
        omega
    · intro ⟨hlo, hhi⟩
      simp only [List.length_cons] at hhi; push_cast at hhi
      by_cases hh : h = k
      · exact ⟨k1, by simp [hh, h1]⟩
      · obtain ⟨s, hs⟩ := this.2 ⟨by omega, by omega⟩
        exact ⟨s, by simp [hs]⟩

theorem denseFrom_injective (m : List (Callsite × Handle)) :
    ∀ k : Int, denseFrom k m → ∀ (s1 s2 : Callsite) (h : Int), (s1, h) ∈ m → (s2, h) ∈ m → s1 = s2 := by
  induction m with
  | nil => intro k _ s1 s2 h h1; simp at h1
  | cons e rest ih =>
    intro k hd s1 s2 h hm1 hm2
    obtain ⟨k1, v1⟩ := e
    simp only [denseFrom] at hd
    obtain ⟨h1, h2⟩ := hd
    replace h1 : @Eq Int v1 k := h1
    have hrange := denseFrom_mem rest h (k + 1) h2
    simp only [List.mem_cons, Prod.mk.injEq] at hm1 hm2
    rcases hm1 with ⟨rfl, rfl⟩ | hm1
    · rcases hm2 with ⟨rfl, -⟩ | hm2
      · rfl
      · have := hrange.1 ⟨s2, hm2⟩
        omega
    · rcases hm2 with ⟨rfl, rfl⟩ | hm2
      · have := hrange.1 ⟨s1, hm1⟩
        omega
      · exact ih (k + 1) h2 s1 s2 h hm1 hm2

theorem hfc_keys (c : Context) (s : Callsite) :
    (c.HandleFromCallsite s.pc s.file s.line).1.handles.map Prod.fst =
      if s ∈ c.handles.map Prod.fst then c.handles.map Prod.fst
      else c.handles.map Prod.fst ++ [s] := by
  cases hl : mapLookup c.handles s with
  | none =>
    have hnot := (mapLookup_eq_none_iff c.handles s).1 hl
    rw [hfc_fresh c s hl, if_neg hnot]
    simp [mapStore_of_lookup_none _ _ _ hl]
  | some h =>
    have hin : s ∈ c.handles.map Prod.fst := by
      by_contra hnot
      rw [(mapLookup_eq_none_iff c.handles s).2 hnot] at hl
      cases hl
    rw [hfc_registered c s h hl, if_pos hin]

theorem hfc_length_le (c : Context) (s : Callsite) :
    c.handles.length ≤ (c.HandleFromCallsite s.pc s.file s.line).1.handles.length := by
  have h := congrArg List.length (hfc_keys c s)
  simp only [List.length_map] at h
  rw [h]
  split
  · simp
  · simp

theorem hfc_registryOk (c : Context) (s : Callsite) (hok : RegistryOk c)
    (hcap : ((c.HandleFromCallsite s.pc s.file s.line).1.handles.length : Int) < 2 ^ 63) :
    RegistryOk (c.HandleFromCallsite s.pc s.file s.line).1 := by
  cases hl : mapLookup c.handles s with
  | some h => rw [hfc_registered c s h hl]; exact hok
  | none =>
    obtain ⟨hd, hn, hk⟩ := hok
    have hnot := (mapLookup_eq_none_iff c.handles s).1 hl
    rw [hfc_fresh c s hl] at hcap ⊢
    simp only [mapStore_of_lookup_none _ _ _ hl, List.length_append, List.length_singleton,
      Nat.cast_add, Nat.cast_one] at hcap
    refine ⟨?_, ?_, ?_⟩
    · simp only [mapStore_of_lookup_none _ _ _ hl]
      have := denseFrom_append c.handles s 0 hd
      rw [Int.zero_add] at this
      rw [hn]
      exact this
    · simp only [mapStore_of_lookup_none _ _ _ hl, List.length_append, List.length_singleton,
        Nat.cast_add, Nat.cast_one]
      rw [hn]
      have hlen : (0 : Int) ≤ (c.handles.length : Int) := Int.natCast_nonneg _
      unfold wrapInt wrapInt64
      omega
    · simp only [mapStore_of_lookup_none _ _ _ hl, List.map_append, List.map_cons,
        List.map_nil]
      exact List.Nodup.append hk (List.nodup_singleton s) (by simpa using hnot)

/-- What a call does to the registry: nothing, or one resolution. -/
theorem step_registry (c c1 : Context) (op : Op) (log1 : List Resolution)
    (hs : step c op = .ok (c1, log1)) :
    (c1.handles = c.handles ∧ c1.handleCount = c.handleCount ∧ log1 = []) ∨
    (∃ (s : Callsite) (b : Bool),
      c1.handles = (c.HandleFromCallsite s.pc s.file s.line).1.handles ∧
      c1.handleCount = (c.HandleFromCallsite s.pc s.file s.line).1.handleCount ∧
      log1 = [⟨b, s, (c.HandleFromCallsite s.pc s.file s.line).2⟩]) := by
  rcases step_cases c c1 op log1 hs with
    ⟨s, now, rfl, hE, rfl⟩ | ⟨h2, now, rfl, hX, rfl⟩ | ⟨rfl, rfl, rfl⟩ | ⟨s, rfl, rfl, rfl⟩
  · right
    obtain ⟨c2, hE2, hn, hh, -⟩ := Enter_spec c s now
    rw [hE2] at hE
    cases hE
    exact ⟨s, true, hh, hn, rfl⟩
  · left
    obtain ⟨st, e, -, hn, hh, -⟩ := Exit_ok_inv c c1 h2 now hX
    exact ⟨hh, hn, rfl⟩
  · left; exact ⟨rfl, rfl, rfl⟩
  · right; exact ⟨s, false, rfl, rfl, rfl⟩

theorem registryOk_congr (c c1 : Context) (hh : c1.handles = c.handles)
    (hn : c1.handleCount = c.handleCount) (hok : RegistryOk c) : RegistryOk c1 := by
  unfold RegistryOk at *
  rw [hh, hn]; exact hok

theorem step_length_le (c c1 : Context) (op : Op) (log1 : List Resolution)
    (hs : step c op = .ok (c1, log1)) : c.handles.length ≤ c1.handles.length := by
  rcases step_registry c c1 op log1 hs with ⟨hh, -, -⟩ | ⟨s, b, hh, -, -⟩
  · rw [hh]
  · rw [hh]; exact hfc_length_le c s

theorem runOps_length_le (ops : List Op) :
    ∀ (c c2 : Context) (log : List Resolution), runOps c ops = .ok (c2, log) →
      c.handles.length ≤ c2.handles.length := by
  induction ops with
  | nil =>
    intro c c2 log hr
    simp only [runOps, Except.ok.injEq, Prod.mk.injEq] at hr
    rw [hr.1]
  | cons op rest ih =>
    intro c c2 log hr
    obtain ⟨c1, log1, log2, hs, hq, rfl⟩ := runOps_cons_inv c c2 op rest log hr
    exact Nat.le_trans (step_length_le c c1 op log1 hs) (ih c1 c2 log2 hq)

theorem step_registryOk (c c1 : Context) (op : Op) (log1 : List Resolution)
    (hs : step c op = .ok (c1, log1)) (hok : RegistryOk c)
    (hcap : (c1.handles.length : Int) < 2 ^ 63) : RegistryOk c1 := by
  rcases step_registry c c1 op log1 hs with ⟨hh, hn, -⟩ | ⟨s, b, hh, hn, -⟩
  · exact registryOk_congr c c1 hh hn hok
  · rw [hh] at hcap
    exact registryOk_congr _ c1 hh hn (hfc_registryOk c s hok hcap)

theorem runOps_registryOk (ops : List Op) :
    ∀ (c c2 : Context) (log : List Resolution), runOps c ops = .ok (c2, log) →
      RegistryOk c → (c2.handles.length : Int) < 2 ^ 63 → RegistryOk c2 := by
  induction ops with
  | nil =>
    intro c c2 log hr hok _
    simp only [runOps, Except.ok.injEq, Prod.mk.injEq] at hr
    rw [← hr.1]; exact hok
  | cons op rest ih =>
    intro c c2 log hr hok hcap
    obtain ⟨c1, log1, log2, hs, hq, rfl⟩ := runOps_cons_inv c c2 op rest log hr
    have hle := runOps_length_le rest c1 c2 log2 hq
    have hcap1 : (c1.handles.length : Int) < 2 ^ 63 := by omega
    exact ih c1 c2 log2 hq (step_registryOk c c1 op log1 hs hok hcap1) hcap

theorem registryOk_Init : RegistryOk Init := by
  simp [RegistryOk, Init, denseFrom]

theorem reachable_registryOk (c : Context) (hr : Reachable c) : RegistryOk c := by
  obtain ⟨ops, log, hrun, hcap⟩ := hr
  exact runOps_registryOk ops Init c log hrun registryOk_Init hcap

theorem step_lookup_stable (c c1 : Context) (op : Op) (log1 : List Resolution)
    (s : Callsite) (h : Handle) (hs : step c op = .ok (c1, log1))
    (hl : mapLookup c.handles s = some h) : mapLookup c1.handles s = some h := by
  rcases step_registry c c1 op log1 hs with ⟨hh, -, -⟩ | ⟨s2, b, hh, -, -⟩
  · rw [hh]; exact hl
  · rw [hh]; exact hfc_lookup_stable c s2 s h hl

theorem runOps_lookup_stable (ops : List Op) (s : Callsite) (h : Handle) :
    ∀ (c c2 : Context) (log : List Resolution), runOps c ops = .ok (c2, log) →
      mapLookup c.handles s = some h → mapLookup c2.handles s = some h := by
  induction ops with
  | nil =>
    intro c c2 log hr hl
    simp only [runOps, Except.ok.injEq, Prod.mk.injEq] at hr
    rw [← hr.1]; exact hl
  | cons op rest ih =>
    intro c c2 log hr hl
    obtain ⟨c1, log1, log2, hs, hq, rfl⟩ := runOps_cons_inv c c2 op rest log hr
    exact ih c1 c2 log2 hq (step_lookup_stable c c1 op log1 s h hs hl)

/-- Every handle handed out during an execution is the one the registry holds for the
call site at the end. -/
theorem runOps_log_lookup (ops : List Op) :
    ∀ (c c2 : Context) (log : List Resolution), runOps c ops = .ok (c2, log) →
      ∀ r ∈ log, mapLookup c2.handles r.callsite = some r.handle := by
  induction ops with
  | nil =>
    intro c c2 log hr r hmem
    simp only [runOps, Except.ok.injEq, Prod.mk.injEq] at hr
    rw [← hr.2] at hmem
    cases hmem
  | cons op rest ih =>
    intro c c2 log hr r hmem
    obtain ⟨c1, log1, log2, hs, hq, rfl⟩ := runOps_cons_inv c c2 op rest log hr
    rcases List.mem_append.1 hmem with h1 | h2
    · rcases step_registry c c1 op log1 hs with ⟨-, -, rfl⟩ | ⟨s, b, hh, -, rfl⟩
      · cases h1
      · simp only [List.mem_singleton] at h1
        subst h1
        apply runOps_lookup_stable rest _ _ c1 c2 log2 hq
        rw [hh]
        exact hfc_lookup_self c s
    · exact ih c1 c2 log2 hq r h2

theorem firstSeenFrom_append (l1 l2 : List Callsite) :
    ∀ acc, firstSeenFrom acc (l1 ++ l2) = firstSeenFrom (firstSeenFrom acc l1) l2 := by
  induction l1 with
  | nil => intro acc; rfl
  | cons s rest ih =>
    intro acc
    show firstSeenFrom _ (rest ++ l2) = _
    rw [ih]
    rfl

/-- The call sites of the registry, in the order of the list, are the registered ones
followed by the new ones of the execution in the order of their first resolution. -/
theorem runOps_keys (ops : List Op) :
    ∀ (c c2 : Context) (log : List Resolution), runOps c ops = .ok (c2, log) →
      c2.handles.map Prod.fst =
        firstSeenFrom (c.handles.map Prod.fst) (log.map Resolution.callsite) := by
  induction ops with
  | nil =>
    intro c c2 log hr
    simp only [runOps, Except.ok.injEq, Prod.mk.injEq] at hr
    rw [← hr.1, ← hr.2]; rfl
  | cons op rest ih =>
    intro c c2 log hr
    obtain ⟨c1, log1, log2, hs, hq, rfl⟩ := runOps_cons_inv c c2 op rest log hr
    rw [List.map_append, firstSeenFrom_append, ih c1 c2 log2 hq]
    congr 1
    rcases step_registry c c1 op log1 hs with ⟨hh, -, rfl⟩ | ⟨s, b, hh, -, rfl⟩
    · rw [hh]; rfl
    · rw [hh, hfc_keys]; rfl

theorem registryOk_lookup_index (c : Context) (hok : RegistryOk c) (s : Callsite) (h : Int)
    (hl : mapLookup c.handles s = some h) :
    h = ((c.handles.map Prod.fst).indexOf s : Nat) := by
  have := denseFrom_lookup c.handles s h 0 hok.1 hl
  omega

theorem registryOk_injective (c : Context) (hok : RegistryOk c) (s1 s2 : Callsite) (h : Int)
    (h1 : mapLookup c.handles s1 = some h) (h2 : mapLookup c.handles s2 = some h) :
    s1 = s2 :=
  denseFrom_injective c.handles 0 hok.1 s1 s2 h (mapLookup_mem _ _ _ h1) (mapLookup_mem _ _ _ h2)

theorem mem_mapLookup_of_nodup (m : List (Callsite × Handle)) (s : Callsite) (h : Handle)
    (hnd : (m.map Prod.fst).Nodup) (hmem : (s, h) ∈ m) : mapLookup m s = some h := by
  induction m with
  | nil => cases hmem
  | cons e rest ih =>
    obtain ⟨k1, v1⟩ := e
    simp only [List.map_cons, List.nodup_cons] at hnd
    simp only [List.mem_cons, Prod.mk.injEq] at hmem
    rcases hmem with ⟨rfl, rfl⟩ | hm
    · simp [mapLookup]
    · have hne : k1 ≠ s := by
        rintro rfl
        exact hnd.1 (List.mem_map.2 ⟨(k1, h), hm, rfl⟩)
      simp [mapLookup, hne, ih hnd.2 hm]

theorem denseFrom_get (m : List (Callsite × Handle)) :
    ∀ (k : Int), denseFrom k m → ∀ (i : Nat) (hi : i < m.length),
      @Eq Int (m.get ⟨i, hi⟩).2 (k + i) := by
  induction m with
  | nil => intro k _ i hi; simp at hi
  | cons e rest ih =>
    intro k hd i hi
    obtain ⟨k1, v1⟩ := e
    simp only [denseFrom] at hd
    obtain ⟨h1, h2⟩ := hd
    replace h1 : @Eq Int v1 k := h1
    cases i with
    | zero => simp [h1]
    | succ j =>
      have := ih (k + 1) h2 j (by simpa using hi)
      simp only [List.get_eq_getElem, List.getElem_cons_succ] at this ⊢
      rw [this]; push_cast; ring

/-! ## C3: resolution is stable -/

/-- C3: `HandleFromCallsite` is deterministic and stable.  On every context (reachable or
not), after a tuple was resolved, resolving it again after any sequence of `Enter`, `Exit`,
`Finalize` and `HandleFromCallsite` calls returns the same handle; resolving a registered
tuple returns its handle and leaves the registry map and `handleCount` unchanged; and all
resolutions of one tuple within an execution return the same handle. -/
theorem C3_resolution_stable (c : Context) (pc : Nat) (file : String) (line : Int) :
    (∀ ops c2 log, runOps (c.HandleFromCallsite pc file line).1 ops = .ok (c2, log) →
      (c2.HandleFromCallsite pc file line).2 = (c.HandleFromCallsite pc file line).2) ∧
    (∀ h, mapLookup c.handles ⟨pc, file, line⟩ = some h →
      (c.HandleFromCallsite pc file line).2 = h ∧
      (c.HandleFromCallsite pc file line).1.handles = c.handles ∧
      (c.HandleFromCallsite pc file line).1.handleCount = c.handleCount) ∧
    (∀ ops c2 log, runOps c ops = .ok (c2, log) →
      ∀ r1 ∈ log, ∀ r2 ∈ log, r1.callsite = r2.callsite → r1.handle = r2.handle) := by
  refine ⟨?_, ?_, ?_⟩
  · intro ops c2 log hr
    have h1 := hfc_lookup_self c ⟨pc, file, line⟩
    have h2 := runOps_lookup_stable ops ⟨pc, file, line⟩ _ _ c2 log hr h1
    have h3 := hfc_registered c2 ⟨pc, file, line⟩ _ h2
    simp only at h3
    rw [h3]
  · intro h hl
    have h3 := hfc_registered c ⟨pc, file, line⟩ h hl
    simp only at h3
    rw [h3]
    exact ⟨rfl, rfl, rfl⟩
  · intro ops c2 log hr r1 hr1 r2 hr2 heq
    have h1 := runOps_log_lookup ops c c2 log hr r1 hr1
    have h2 := runOps_log_lookup ops c c2 log hr r2 hr2
    rw [heq, h2] at h1
    exact (Option.some.inj h1).symm

/-- Witness of C3: the tuple (100, "a.go", 10) gets handle 0 on the fresh context and again
after an `Enter` from another site, a resolution of a third tuple and an `Exit`. -/
theorem C3_resolution_stable_witness :
    ∃ c2 log, runOps (Init.HandleFromCallsite 100 "a.go" 10).1
        [.enter (some ⟨200, "b.go", 20⟩) 1, .resolve 7 "c.go" 1, .exit 1 5, .finalize]
        = .ok (c2, log) ∧
      (c2.HandleFromCallsite 100 "a.go" 10).2 = 0 := by
  have h := (C3_resolution_stable Init 100 "a.go" 10).1
    [.enter (some ⟨200, "b.go", 20⟩) 1, .resolve 7 "c.go" 1, .exit 1 5, .finalize]
  exact ⟨_, _, rfl, h _ _ rfl⟩

/-! ## C4: the registry is injective -/

/-- C4: in every context an execution started by `Init` reaches, two tuples that differ in
`pc`, `file` or `line` are never mapped to the same handle, and two resolutions of the
execution (by `Enter` or by `HandleFromCallsite`) for distinct call sites returned distinct
handles.  The bound on the length of the registry is the one every Go map has. -/
theorem C4_registry_injective (ops : List Op) (c : Context) (log : List Resolution)
    (hrun : runOps Init ops = .ok (c, log)) (hcap : (c.handles.length : Int) < 2 ^ 63) :
    (∀ (s1 s2 : Callsite) (h1 h2 : Handle),
      mapLookup c.handles s1 = some h1 → mapLookup c.handles s2 = some h2 →
      (s1.pc ≠ s2.pc ∨ s1.file ≠ s2.file ∨ s1.line ≠ s2.line) → h1 ≠ h2) ∧
    (∀ r1 ∈ log, ∀ r2 ∈ log, r1.callsite ≠ r2.callsite → r1.handle ≠ r2.handle) := by
  have hok : RegistryOk c := runOps_registryOk ops Init c log hrun registryOk_Init hcap
  refine ⟨?_, ?_⟩
  · intro s1 s2 h1 h2 hl1 hl2 hdiff heq
    subst heq
    have := registryOk_injective c hok s1 s2 h1 hl1 hl2
    subst this
    rcases hdiff with h | h | h <;> exact h rfl
  · intro r1 hr1 r2 hr2 hne heq
    have h1 := runOps_log_lookup ops Init c log hrun r1 hr1
    have h2 := runOps_log_lookup ops Init c log hrun r2 hr2
    rw [heq] at h1
    exact hne (registryOk_injective c hok _ _ _ h1 h2)

/-- Witness of C4: two `Enter` calls from different lines of one file get handles 0 and 1. -/
theorem C4_registry_injective_witness :
    ∃ c log, runOps Init [.enter (some ⟨100, "a.go", 10⟩) 1, .enter (some ⟨100, "a.go", 11⟩) 2]
        = .ok (c, log) ∧
      (∀ r1 ∈ log, ∀ r2 ∈ log, r1.callsite ≠ r2.callsite → r1.handle ≠ r2.handle) ∧
      log.map Resolution.handle = [0, 1] := by
  have h := C4_registry_injective
    [.enter (some ⟨100, "a.go", 10⟩) 1, .enter (some ⟨100, "a.go", 11⟩) 2]
  exact ⟨_, _, rfl, (h _ _ rfl (by decide)).2, rfl⟩

/-! ## C5: handles are dense and in first-seen order -/

/-- C5: in an execution started by `Init`, every resolution of a tuple returns the position
(counted from 0) of the tuple among the distinct tuples in the order of their first
resolution, so the k-th distinct tuple gets handle k-1 and keeps it in the registry; the
handles stored in the registry are exactly 0, ..., handleCount-1; and handleCount is the
number of registered call sites.  The bound on the length of the registry is the one every
Go map has. -/
theorem C5_dense_first_seen (ops : List Op) (c : Context) (log : List Resolution)
    (hrun : runOps Init ops = .ok (c, log)) (hcap : (c.handles.length : Int) < 2 ^ 63) :
    (∀ r ∈ log, r.handle =
      (((firstSeen (log.map Resolution.callsite)).indexOf r.callsite : Nat) : Int)) ∧
    (∀ (k : Nat) (hk : k < (firstSeen (log.map Resolution.callsite)).length),
      mapLookup c.handles ((firstSeen (log.map Resolution.callsite)).get ⟨k, hk⟩)
        = some (k : Int)) ∧
    (∀ h : Int, (∃ s, mapLookup c.handles s = some h) ↔ (0 ≤ h ∧ h < c.handleCount)) ∧
    c.handleCount = c.handles.length ∧
    (c.handles.map Prod.fst).Nodup := by
  have hok : RegistryOk c := runOps_registryOk ops Init c log hrun registryOk_Init hcap
  have hkeys : c.handles.map Prod.fst = firstSeen (log.map Resolution.callsite) :=
    runOps_keys ops Init c log hrun
  refine ⟨?_, ?_, ?_, hok.2.1, hok.2.2⟩
  · intro r hr
    have hl := runOps_log_lookup ops Init c log hrun r hr
    rw [← hkeys]
    exact registryOk_lookup_index c hok _ _ hl
  · intro k hk
    have hlen : (firstSeen (log.map Resolution.callsite)).length = c.handles.length := by
      rw [← hkeys, List.length_map]
    have hk2 : k < c.handles.length := by omega
    have hsnd := denseFrom_get c.handles 0 hok.1 k hk2
    have hfst : (c.handles.get ⟨k, hk2⟩).1 =
        (firstSeen (log.map Resolution.callsite)).get ⟨k, hk⟩ := by
      simp only [← hkeys, List.get_eq_getElem, List.getElem_map]
    apply mem_mapLookup_of_nodup c.handles _ _ hok.2.2
    have hmem : c.handles.get ⟨k, hk2⟩ ∈ c.handles := List.get_mem _ _ _
    have heq : c.handles.get ⟨k, hk2⟩ =
        ((firstSeen (log.map Resolution.callsite)).get ⟨k, hk⟩, (k : Int)) := by
      apply Prod.ext
      · exact hfst
      · show @Eq Int (c.handles.get ⟨k, hk2⟩).2 (k : Int)
        rw [hsnd]; omega
    rw [heq] at hmem
    exact hmem
  · intro h
    have hm := denseFrom_mem c.handles h 0 hok.1
    rw [hok.2.1]
    constructor
    · rintro ⟨s, hs⟩
      have := hm.1 ⟨s, mapLookup_mem _ _ _ hs⟩
      omega
    · intro hh
      obtain ⟨s, hs⟩ := hm.2 (by omega)
      exact ⟨s, mem_mapLookup_of_nodup _ _ _ hok.2.2 hs⟩

/-- Witness of C5: sites A, B, A, C resolved in this order get handles 0, 1, 0, 2. -/
theorem C5_dense_first_seen_witness :
    ∃ c log, runOps Init [.enter (some ⟨100, "a.go", 10⟩) 1, .enter (some ⟨200, "b.go", 20⟩) 2,
        .enter (some ⟨100, "a.go", 10⟩) 3, .resolve 7 "c.go" 1] = .ok (c, log) ∧
      log.map Resolution.handle = [0, 1, 0, 2] ∧
      (∀ h : Int, (∃ s, mapLookup c.handles s = some h) ↔ (0 ≤ h ∧ h < 3)) := by
  have h := C5_dense_first_seen [.enter (some ⟨100, "a.go", 10⟩) 1,
    .enter (some ⟨200, "b.go", 20⟩) 2, .enter (some ⟨100, "a.go", 10⟩) 3, .resolve 7 "c.go" 1]
  exact ⟨_, _, rfl, rfl, (h _ _ rfl (by decide)).2.2.1⟩

/-! ## C6: recursion -/

/-- C6 (amended): for a call site A with no prior activity and readings t1 <= t2 <= t3 <= t4,
the calls Enter(A) at t1, Enter(A) at t2, Exit at t3, Exit at t4 all return normally, both
`Enter` return the same handle, the first `Exit` pops t2 and the second pops t1, and A ends
with hit count 2, an empty stack and accumulated time the int64 wrap of
(t3 - t2) + (t4 - t1); the inner duration t3 - t2 is at most the outer duration t4 - t1; and
whenever (t3 - t2) + (t4 - t1) < 2^63 the accumulated time is t3 - t2 after the first `Exit`
and (t3 - t2) + (t4 - t1) at the end. -/
theorem C6_recursion (c : Context) (A : Callsite) (t1 t2 t3 t4 : Int)
    (hhits : (c.hits (c.HandleFromCallsite A.pc A.file A.line).2).getD 0 = 0)
    (htime : (c.timeSpent (c.HandleFromCallsite A.pc A.file A.line).2).getD 0 = 0)
    (hstack : (c.entryTime (c.HandleFromCallsite A.pc A.file A.line).2).getD [] = [])
    (h12 : t1 ≤ t2) (h23 : t2 ≤ t3) (h34 : t3 ≤ t4) :
    ∃ c1 c2 c3 c4 h,
      Enter (some c) (some A) t1 = .ok (c1, h) ∧
      Enter (some c1) (some A) t2 = .ok (c2, h) ∧
      Exit (some c2) h t3 = .ok c3 ∧
      Exit (some c3) h t4 = .ok c4 ∧
      (c2.entryTime h).getD [] = [t1, t2] ∧
      (c3.entryTime h).getD [] = [t1] ∧
      (c3.timeSpent h).getD 0 = wrapInt64 (t3 - t2) ∧
      (c4.hits h).getD 0 = 2 ∧
      (c4.entryTime h).getD [] = [] ∧
      (c4.timeSpent h).getD 0 = wrapInt64 ((t3 - t2) + (t4 - t1)) ∧
      t3 - t2 ≤ t4 - t1 ∧
      ((t3 - t2) + (t4 - t1) < 2 ^ 63 →
        (c3.timeSpent h).getD 0 = t3 - t2 ∧
        (c4.timeSpent h).getD 0 = (t3 - t2) + (t4 - t1)) := by
  obtain ⟨c1, hE1, hn1, hh1, hhits1, htime1, hst1⟩ := Enter_spec c A t1
  generalize hh : (c.HandleFromCallsite A.pc A.file A.line).2 = h at *
  have hreg1 : mapLookup c1.handles A = some h := by
    rw [hh1, hfc_lookup_self, hh]
  obtain ⟨c2, hE2, hn2, hh2, hhits2, htime2, hst2⟩ := Enter_spec c1 A t2
  rw [hfc_registered c1 A h hreg1] at hE2 hhits2 hst2
  simp only at hE2 hhits2 hst2
  have hs2 : (c2.entryTime h).getD [] = [t1] ++ [t2] := by
    rw [hst2, store_same, hst1, store_same, hstack]; rfl
  obtain ⟨c3, hX3, -, -, hhits3, hst3, htime3⟩ := Exit_spec_ok c2 h t3 [t1] t2 hs2
  have hs3 : (c3.entryTime h).getD [] = [] ++ [t1] := by
    rw [hst3, store_same]; rfl
  obtain ⟨c4, hX4, -, -, hhits4, hst4, htime4⟩ := Exit_spec_ok c3 h t4 [] t1 hs3
  have ht3 : (c3.timeSpent h).getD 0 = wrapInt64 (t3 - t2) := by
    rw [htime3, store_same, htime2, htime1, htime]
    simp only [Option.getD_some, Int.zero_add]
    unfold wrapInt64; omega
  have ht4 : (c4.timeSpent h).getD 0 = wrapInt64 ((t3 - t2) + (t4 - t1)) := by
    rw [htime4, store_same, ht3]
    simp only [Option.getD_some]
    unfold wrapInt64; omega
  refine ⟨c1, c2, c3, c4, h, hE1, hE2, hX3, hX4, hs2, hs3, ht3, ?_, ?_, ht4, by omega, ?_⟩
  · rw [hhits4, hhits3, hhits2, store_same, hhits1, store_same, hhits]
    rfl
  · rw [hst4, store_same]; rfl
  · intro hfit
    rw [ht3, ht4]
    constructor <;> (unfold wrapInt64; omega)

/-- Witness of C6: readings 1, 2, 5, 9 on the fresh context give 2 hits, an empty stack and
(5 - 2) + (9 - 1) = 11 nanoseconds. -/
theorem C6_recursion_witness :
    ∃ c1 c2 c3 c4,
      Enter (some Init) (some ⟨100, "a.go", 10⟩) 1 = .ok (c1, 0) ∧
      Enter (some c1) (some ⟨100, "a.go", 10⟩) 2 = .ok (c2, 0) ∧
      Exit (some c2) 0 5 = .ok c3 ∧ Exit (some c3) 0 9 = .ok c4 ∧
      (c3.entryTime 0).getD [] = [1] ∧ (c3.timeSpent 0).getD 0 = 3 ∧
      (c4.hits 0).getD 0 = 2 ∧ (c4.entryTime 0).getD [] = [] ∧
      (c4.timeSpent 0).getD 0 = 11 := by
  obtain ⟨c1, c2, c3, c4, h, hE1, hE2, hX3, hX4, -, hs3, -, hh4, hs4, -, -, hfit⟩ :=
    C6_recursion Init ⟨100, "a.go", 10⟩ 1 2 5 9 rfl rfl rfl (by decide) (by decide) (by decide)
  have hh : h = 0 := by
    obtain ⟨c1b, hE1b, -⟩ := Enter_spec Init ⟨100, "a.go", 10⟩ 1
    rw [hE1b] at hE1
    simp only [Except.ok.injEq, Prod.mk.injEq] at hE1
    rw [← hE1.2]; rfl
  subst hh
  obtain ⟨ht3, ht4⟩ := hfit (by decide)
  exact ⟨c1, c2, c3, c4, hE1, hE2, hX3, hX4, hs3, ht3, hh4, hs4, ht4⟩

/-- Counterexample to C6 as stated: with readings 0 <= 0 <= 2^62 <= 2^62 the claim gives
accumulated time 2^62 + 2^62 = 2^63, and the code leaves -2^63. -/
theorem C6_recursion_overflow_counterexample :
    ∃ c1 c2 c3 c4,
      Enter (some Init) (some ⟨100, "a.go", 10⟩) 0 = .ok (c1, 0) ∧
      Enter (some c1) (some ⟨100, "a.go", 10⟩) 0 = .ok (c2, 0) ∧
      Exit (some c2) 0 (2 ^ 62) = .ok c3 ∧ Exit (some c3) 0 (2 ^ 62) = .ok c4 ∧
      (c4.timeSpent 0).getD 0 = -(2 ^ 63) ∧
      (c4.timeSpent 0).getD 0 ≠ (2 ^ 62 - 0) + (2 ^ 62 - 0) := by
  refine ⟨_, _, _, _, rfl, rfl, rfl, rfl, ?_, ?_⟩ <;> decide

/-! ## C7: stack depth -/

/-- C7: after any sequence of calls started by `Init` in which every call returned normally,
the length of the entry-timestamp stack of every handle h is the number of `Enter` calls
that returned h minus the number of `Exit(h)` calls. -/
theorem C7_stack_depth (ops : List Op) (c : Context) (log : List Resolution) (h : Handle)
    (hrun : runOps Init ops = .ok (c, log)) :
    exitCount h ops ≤ enterCount h log ∧
    ((c.entryTime h).getD []).length = enterCount h log - exitCount h ops ∧
    (((c.entryTime h).getD []).length : Int) = (enterCount h log : Int) - (exitCount h ops : Int) := by
  have hc := runOps_stack_count h ops Init c log hrun
  have h0 : ((Init.entryTime h).getD []).length = 0 := rfl
  rw [h0] at hc
  refine ⟨by omega, by omega, by omega⟩

/-- Witness of C7: after Enter, Enter, Exit from one call site the stack of handle 0 has
length 2 - 1 = 1. -/
theorem C7_stack_depth_witness :
    ∃ c log, runOps Init [.enter (some ⟨100, "a.go", 10⟩) 1, .enter (some ⟨100, "a.go", 10⟩) 2,
        .exit 0 5] = .ok (c, log) ∧
      enterCount 0 log = 2 ∧
      ((c.entryTime 0).getD []).length = 2 - 1 := by
  have h := C7_stack_depth [.enter (some ⟨100, "a.go", 10⟩) 1,
    .enter (some ⟨100, "a.go", 10⟩) 2, .exit 0 5]
  exact ⟨_, _, rfl, rfl, (h _ _ 0 rfl).2.1⟩

/-! ## C8: hit counts -/

theorem step_hits (c c1 : Context) (op : Op) (log1 : List Resolution) (h : Handle)
    (hs : step c op = .ok (c1, log1)) :
    (c1.hits h).getD 0 =
      if enterCount h log1 = 0 then (c.hits h).getD 0
      else wrapUint64 ((c.hits h).getD 0 + 1) := by
  rcases step_cases c c1 op log1 hs with
    ⟨s, now, rfl, hE, rfl⟩ | ⟨h2, now, rfl, hX, rfl⟩ | ⟨rfl, rfl, rfl⟩ | ⟨s, rfl, rfl, rfl⟩
  · obtain ⟨c2, hE2, -, -, hhits, -, -⟩ := Enter_spec c s now
    rw [hE2] at hE
    cases hE
    rw [hhits]
    by_cases hh : h = (c.HandleFromCallsite s.pc s.file s.line).2
    · subst hh
      simp [store_same, enterCount]
    · have hh2 : ¬ (c.HandleFromCallsite s.pc s.file s.line).2 = h := fun e => hh e.symm
      simp [store_other _ _ _ _ hh, enterCount, hh2]
  · obtain ⟨st, e, -, -, -, hhits, -, -⟩ := Exit_ok_inv c c1 h2 now hX
    simp [hhits, enterCount]
  · simp [enterCount]
  · simp [enterCount, (hfc_frame c s).1]

theorem step_enterCount_le_one (c c1 : Context) (op : Op) (log1 : List Resolution)
    (h : Handle) (hs : step c op = .ok (c1, log1)) : enterCount h log1 ≤ 1 := by
  rcases step_registry c c1 op log1 hs with ⟨-, -, rfl⟩ | ⟨s, b, -, -, rfl⟩
  · simp [enterCount]
  · unfold enterCount
    exact List.countP_le_length _

theorem runOps_hits (h : Handle) (ops : List Op) :
    ∀ (c c2 : Context) (log : List Resolution), runOps c ops = .ok (c2, log) →
      (c.hits h).getD 0 + enterCount h log < 2 ^ 64 →
      (c2.hits h).getD 0 = (c.hits h).getD 0 + enterCount h log := by
  induction ops with
  | nil =>
    intro c c2 log hr _
    simp only [runOps, Except.ok.injEq, Prod.mk.injEq] at hr
    obtain ⟨rfl, rfl⟩ := hr
    simp [enterCount]
  | cons op rest ih =>
    intro c c2 log hr hlt
    obtain ⟨c1, log1, log2, hs, hq, rfl⟩ := runOps_cons_inv c c2 op rest log hr
    have e2 : enterCount h (log1 ++ log2) = enterCount h log1 + enterCount h log2 := by
      simp [enterCount, List.countP_append]
    rw [e2] at hlt ⊢
    have h1 := step_hits c c1 op log1 h hs
    have hle := step_enterCount_le_one c c1 op log1 h hs
    have hc1 : (c1.hits h).getD 0 = (c.hits h).getD 0 + enterCount h log1 := by
      rw [h1]
      split
      · omega
      · unfold wrapUint64; omega
    have := ih c1 c2 log2 hq (by omega)
    omega

theorem runOps_hits_le (h : Handle) (ops : List Op) :
    ∀ (c c2 : Context) (log : List Resolution), runOps c ops = .ok (c2, log) →
      (c2.hits h).getD 0 ≤ (c.hits h).getD 0 + enterCount h log := by
  induction ops with
  | nil =>
    intro c c2 log hr
    simp only [runOps, Except.ok.injEq, Prod.mk.injEq] at hr
    obtain ⟨rfl, rfl⟩ := hr
    simp [enterCount]
  | cons op rest ih =>
    intro c c2 log hr
    obtain ⟨c1, log1, log2, hs, hq, rfl⟩ := runOps_cons_inv c c2 op rest log hr
    have e2 : enterCount h (log1 ++ log2) = enterCount h log1 + enterCount h log2 := by
      simp [enterCount, List.countP_append]
    have h1 := step_hits c c1 op log1 h hs
    have hc1 : (c1.hits h).getD 0 ≤ (c.hits h).getD 0 + enterCount h log1 := by
      rw [h1]
      split
      · omega
      · unfold wrapUint64; omega
    have := ih c1 c2 log2 hq
    omega

theorem runOps_log_length_le (ops : List Op) :
    ∀ (c c2 : Context) (log : List Resolution), runOps c ops = .ok (c2, log) →
      log.length ≤ ops.length := by
  induction ops with
  | nil =>
    intro c c2 log hr
    simp only [runOps, Except.ok.injEq, Prod.mk.injEq] at hr
    rw [← hr.2]; simp
  | cons op rest ih =>
    intro c c2 log hr
    obtain ⟨c1, log1, log2, hs, hq, rfl⟩ := runOps_cons_inv c c2 op rest log hr
    have h2 := ih c1 c2 log2 hq
    have h1 : log1.length ≤ 1 := by
      rcases step_registry c c1 op log1 hs with ⟨-, -, rfl⟩ | ⟨s, b, -, -, rfl⟩ <;> simp
    simp only [List.length_append, List.length_cons]
    omega

/-- In an execution started by `Init` no hit count exceeds the number of calls made. -/
theorem runOps_hits_le_length (ops : List Op) (c : Context) (log : List Resolution)
    (hrun : runOps Init ops = .ok (c, log)) (h : Handle) :
    (c.hits h).getD 0 ≤ enterCount h log ∧ enterCount h log ≤ ops.length := by
  have h1 := runOps_hits_le h ops Init c log hrun
  have h0 : (Init.hits h).getD 0 = 0 := rfl
  rw [h0, Nat.zero_add] at h1
  have h2 : enterCount h log ≤ log.length := List.countP_le_length _
  have h3 := runOps_log_length_le ops Init c log hrun
  exact ⟨h1, by omega⟩

/-- C8: in an execution started by `Init`, hit counts change only on `Enter` and only upward.
After the calls `pre`, every `Enter` returns normally, increases the hit count of the handle
it returns by exactly 1 and leaves the hit count of every other handle as it is; `Exit` and
`Finalize` leave the hit counts of all handles unchanged; so over any further calls `post`
the hit count of each handle grows by the number of `Enter` calls that returned it and does
not decrease.  The bound on the number of calls of the execution, below 2^64, is one every
run meets; it keeps the uint64 counter from wrapping. -/
theorem C8_hits_only_on_enter (pre : List Op) (c : Context) (log : List Resolution)
    (hrun : runOps Init pre = .ok (c, log)) (hlen : pre.length + 1 < 2 ^ 64) :
    (∀ (s : Callsite) (now : Int), ∃ c1 h, Enter (some c) (some s) now = .ok (c1, h) ∧
      (c1.hits h).getD 0 = (c.hits h).getD 0 + 1 ∧
      ∀ k, k ≠ h → c1.hits k = c.hits k) ∧
    (∀ (h : Handle) (now : Int) (c1 : Context), Exit (some c) h now = .ok c1 →
      c1.hits = c.hits) ∧
    (∀ (sortSort : TimedCallsites → TimedCallsites) (iter : List (Callsite × Handle))
      (c1 : Context) (out : TimedCallsites),
      Finalize sortSort (some c) iter = .ok (c1, out) → c1.hits = c.hits) ∧
    (∀ (post : List Op) (c2 : Context) (log2 : List Resolution) (h : Handle),
      runOps c post = .ok (c2, log2) → pre.length + post.length < 2 ^ 64 →
      (c2.hits h).getD 0 = (c.hits h).getD 0 + enterCount h log2 ∧
      (c.hits h).getD 0 ≤ (c2.hits h).getD 0) := by
  refine ⟨?_, ?_, ?_, ?_⟩
  · intro s now
    obtain ⟨c1, hE, -, -, hhits, -, -⟩ := Enter_spec c s now
    have hle := runOps_hits_le_length pre c log hrun (c.HandleFromCallsite s.pc s.file s.line).2
    refine ⟨c1, _, hE, ?_, ?_⟩
    · rw [hhits, store_same]
      simp only [Option.getD_some, wrapUint64]
      omega
    · intro k hk
      rw [hhits, store_other _ _ _ _ hk]
  · intro h now c1 hX
    obtain ⟨st, e, -, -, -, hhits, -, -⟩ := Exit_ok_inv c c1 h now hX
    exact hhits
  · intro sortSort iter c1 out hF
    rw [Finalize_context sortSort c c1 iter out hF]
  · intro post c2 log2 h hr hlt
    have hle := runOps_hits_le_length pre c log hrun h
    have h2 : enterCount h log2 ≤ log2.length := List.countP_le_length _
    have h3 := runOps_log_length_le post c c2 log2 hr
    have := runOps_hits h post c c2 log2 hr (by omega)
    exact ⟨this, by omega⟩

/-- Witness of C8: the first `Enter` of an execution takes the hit count of handle 0 from 0
to 1, and the following `Exit` leaves the hit counts as they are. -/
theorem C8_hits_only_on_enter_witness :
    ∃ c1 c2, Enter (some Init) (some ⟨100, "a.go", 10⟩) 1 = .ok (c1, 0) ∧
      (c1.hits 0).getD 0 = 1 ∧ Exit (some c1) 0 5 = .ok c2 ∧ c2.hits = c1.hits := by
  obtain ⟨c1, log1, c2, hrun1, hE1, hX⟩ : ∃ c1 log1 c2,
      runOps Init [.enter (some ⟨100, "a.go", 10⟩) 1] = .ok (c1, log1) ∧
      Enter (some Init) (some ⟨100, "a.go", 10⟩) 1 = .ok (c1, 0) ∧
      Exit (some c1) 0 5 = .ok c2 := ⟨_, _, _, rfl, rfl, rfl⟩
  obtain ⟨c1b, h, hE, hinc, -⟩ :=
    (C8_hits_only_on_enter [] Init [] rfl (by decide)).1 ⟨100, "a.go", 10⟩ 1
  rw [hE1] at hE
  simp only [Except.ok.injEq, Prod.mk.injEq] at hE
  obtain ⟨rfl, rfl⟩ := hE
  exact ⟨c1, c2, hE1, hinc, hX,
    (C8_hits_only_on_enter _ c1 log1 hrun1 (by decide)).2.1 0 5 c2 hX⟩

/-! ## C9: accumulated time -/

theorem readings_append (l1 l2 : List Op) : readings (l1 ++ l2) = readings l1 ++ readings l2 := by
  induction l1 with
  | nil => rfl
  | cons op rest ih =>
    show op.reading ++ readings (rest ++ l2) = (op.reading ++ readings rest) ++ readings l2
    rw [ih, List.append_assoc]

theorem step_stack_bound (c c1 : Context) (op : Op) (log1 : List Resolution) (B : Int)
    (hs : step c op = .ok (c1, log1)) (hop : ∀ t ∈ op.reading, t ≤ B)
    (hb : ∀ h, ∀ e ∈ (c.entryTime h).getD [], e ≤ B) :
    ∀ h, ∀ e ∈ (c1.entryTime h).getD [], e ≤ B := by
  intro h e he
  rcases step_cases c c1 op log1 hs with
    ⟨s, now, rfl, hE, rfl⟩ | ⟨h2, now, rfl, hX, rfl⟩ | ⟨rfl, rfl, rfl⟩ | ⟨s, rfl, rfl, rfl⟩
  · obtain ⟨c2, hE2, -, -, -, -, hst⟩ := Enter_spec c s now
    rw [hE2] at hE
    cases hE
    rw [hst] at he
    by_cases hh : h = (c.HandleFromCallsite s.pc s.file s.line).2
    · subst hh
      rw [store_same] at he
      simp only [Option.getD_some, List.mem_append, List.mem_singleton] at he
      rcases he with he | rfl
      · exact hb _ e he
      · exact hop e (by simp [Op.reading])
    · rw [store_other _ _ _ _ hh] at he
      exact hb h e he
  · obtain ⟨st, e2, hst, -, -, -, hst1, -⟩ := Exit_ok_inv c c1 h2 now hX
    rw [hst1] at he
    by_cases hh : h = h2
    · subst hh
      rw [store_same] at he
      apply hb h e
      rw [hst]
      exact List.mem_append_left _ he
    · rw [store_other _ _ _ _ hh] at he
      exact hb h e he
  · exact hb h e he
  · rw [(hfc_frame c s).2.2] at he
    exact hb h e he

theorem runOps_stack_bound (B : Int) (ops : List Op) :
    ∀ (c c2 : Context) (log : List Resolution), runOps c ops = .ok (c2, log) →
      (∀ t ∈ readings ops, t ≤ B) → (∀ h, ∀ e ∈ (c.entryTime h).getD [], e ≤ B) →
      ∀ h, ∀ e ∈ (c2.entryTime h).getD [], e ≤ B := by
  induction ops with
  | nil =>
    intro c c2 log hr _ hb
    simp only [runOps, Except.ok.injEq, Prod.mk.injEq] at hr
    rw [← hr.1]; exact hb
  | cons op rest ih =>
    intro c c2 log hr hops hb
    obtain ⟨c1, log1, log2, hs, hq, rfl⟩ := runOps_cons_inv c c2 op rest log hr
    have h1 : ∀ t ∈ op.reading, t ≤ B := fun t ht =>
      hops t (by simp only [readings, List.mem_append]; exact Or.inl ht)
    have h2 : ∀ t ∈ readings rest, t ≤ B := fun t ht =>
      hops t (by simp only [readings, List.mem_append]; exact Or.inr ht)
    exact ih c1 c2 log2 hq h2 (step_stack_bound c c1 op log1 B hs h1 hb)

theorem step_time_int64 (c c1 : Context) (op : Op) (log1 : List Resolution)
    (hs : step c op = .ok (c1, log1)) (hb : ∀ h, isInt64 ((c.timeSpent h).getD 0)) :
    ∀ h, isInt64 ((c1.timeSpent h).getD 0) := by
  intro h
  rcases step_cases c c1 op log1 hs with
    ⟨s, now, rfl, hE, rfl⟩ | ⟨h2, now, rfl, hX, rfl⟩ | ⟨rfl, rfl, rfl⟩ | ⟨s, rfl, rfl, rfl⟩
  · obtain ⟨c2, hE2, -, -, -, ht, -⟩ := Enter_spec c s now
    rw [hE2] at hE
    cases hE
    rw [ht]; exact hb h
  · obtain ⟨st, e2, -, -, -, -, -, ht⟩ := Exit_ok_inv c c1 h2 now hX
    rw [ht]
    by_cases hh : h = h2
    · subst hh
      rw [store_same]
      exact isInt64_wrapInt64 _
    · rw [store_other _ _ _ _ hh]
      exact hb h
  · exact hb h
  · rw [(hfc_frame c s).2.1]
    exact hb h

theorem runOps_time_int64 (ops : List Op) :
    ∀ (c c2 : Context) (log : List Resolution), runOps c ops = .ok (c2, log) →
      (∀ h, isInt64 ((c.timeSpent h).getD 0)) → ∀ h, isInt64 ((c2.timeSpent h).getD 0) := by
  induction ops with
  | nil =>
    intro c c2 log hr hb
    simp only [runOps, Except.ok.injEq, Prod.mk.injEq] at hr
    rw [← hr.1]; exact hb
  | cons op rest ih =>
    intro c c2 log hr hb
    obtain ⟨c1, log1, log2, hs, hq, rfl⟩ := runOps_cons_inv c c2 op rest log hr
    exact ih c1 c2 log2 hq (step_time_int64 c c1 op log1 hs hb)

/-- C9 (amended): `Enter` and `Finalize` leave the accumulated time of every handle
unchanged.  A successful `Exit(h)` at reading `now` removes the last timestamp e of the stack
of h, sets the accumulated time of h to the int64 wrap of old + (now - e) and leaves the
accumulated times of the other handles unchanged.  In an execution started by `Init` whose
readings are non-decreasing, the increment now - e of every `Exit` is >= 0, and whenever
old + (now - e) < 2^63 the new accumulated time is exactly old + (now - e) and not below
the old one. -/
theorem C9_time_only_on_exit (c : Context) :
    (∀ (caller : Option Callsite) (now : Int) (c1 : Context) (h : Handle),
      Enter (some c) caller now = .ok (c1, h) → c1.timeSpent = c.timeSpent) ∧
    (∀ (sortSort : TimedCallsites → TimedCallsites) (iter : List (Callsite × Handle))
      (c1 : Context) (out : TimedCallsites),
      Finalize sortSort (some c) iter = .ok (c1, out) → c1.timeSpent = c.timeSpent) ∧
    (∀ (h : Handle) (now : Int) (c1 : Context), Exit (some c) h now = .ok c1 →
      ∃ st e, (c.entryTime h).getD [] = st ++ [e] ∧ c1.entryTime h = some st ∧
        c1.timeSpent h = some (wrapInt64 ((c.timeSpent h).getD 0 + (now - e))) ∧
        ∀ k, k ≠ h → c1.timeSpent k = c.timeSpent k) ∧
    (∀ (ops : List Op) (log : List Resolution) (h : Handle) (now : Int) (c1 : Context),
      runOps Init ops = .ok (c, log) →
      List.Pairwise (fun a b => a ≤ b) (readings (ops ++ [.exit h now])) →
      Exit (some c) h now = .ok c1 →
      ∃ st e, (c.entryTime h).getD [] = st ++ [e] ∧ 0 ≤ now - e ∧
        ((c.timeSpent h).getD 0 + (now - e) < 2 ^ 63 →
          c1.timeSpent h = some ((c.timeSpent h).getD 0 + (now - e)) ∧
          (c.timeSpent h).getD 0 ≤ (c1.timeSpent h).getD 0)) := by
  refine ⟨?_, ?_, ?_, ?_⟩
  · intro caller now c1 h hE
    cases caller with
    | none => simp [Enter] at hE
    | some s =>
      obtain ⟨c2, hE2, -, -, -, ht, -⟩ := Enter_spec c s now
      rw [hE2] at hE
      simp only [Except.ok.injEq, Prod.mk.injEq] at hE
      rw [← hE.1]; exact ht
  · intro sortSort iter c1 out hF
    rw [Finalize_context sortSort c c1 iter out hF]
  · intro h now c1 hX
    obtain ⟨st, e, hst, -, -, -, hst1, ht⟩ := Exit_ok_inv c c1 h now hX
    refine ⟨st, e, hst, ?_, ?_, ?_⟩
    · rw [hst1, store_same]
    · rw [ht, store_same, wrapInt64_add_wrapInt64]
    · intro k hk
      rw [ht, store_other _ _ _ _ hk]
  · intro ops log h now c1 hrun hmono hX
    obtain ⟨st, e, hst, -, -, -, -, ht⟩ := Exit_ok_inv c c1 h now hX
    have hle : ∀ t ∈ readings ops, t ≤ now := by
      intro t ht
      rw [readings_append, List.pairwise_append] at hmono
      exact hmono.2.2 t ht now (by simp [readings, Op.reading])
    have hb := runOps_stack_bound now ops Init c log hrun hle
      (by intro h e he; simp [Init] at he) h e (by rw [hst]; simp)
    have hint := runOps_time_int64 ops Init c log hrun
      (by intro h; simp [Init, isInt64]) h
    refine ⟨st, e, hst, by omega, ?_⟩
    intro hfit
    have hval : wrapInt64 ((c.timeSpent h).getD 0 + wrapInt64 (now - e)) =
        (c.timeSpent h).getD 0 + (now - e) := by
      rw [wrapInt64_add_wrapInt64]
      apply wrapInt64_of_isInt64
      unfold isInt64 at hint ⊢
      constructor <;> omega
    rw [ht, store_same, hval]
    exact ⟨rfl, by simp only [Option.getD_some]; omega⟩

/-- Witness of C9: after Enter at 1 and Enter at 2 from one call site, `Exit(0)` at 5 pops 2
and takes the accumulated time of handle 0 from 0 to 3. -/
theorem C9_time_only_on_exit_witness :
    ∃ c log c1, runOps Init [.enter (some ⟨100, "a.go", 10⟩) 1,
        .enter (some ⟨100, "a.go", 10⟩) 2] = .ok (c, log) ∧
      Exit (some c) 0 5 = .ok c1 ∧ (c.entryTime 0).getD [] = [1] ++ [2] ∧
      (c.timeSpent 0).getD 0 = 0 ∧ c1.timeSpent 0 = some 3 ∧
      (c.timeSpent 0).getD 0 ≤ (c1.timeSpent 0).getD 0 := by
  obtain ⟨c, log, hrun, hst, ht⟩ : ∃ c log, runOps Init [.enter (some ⟨100, "a.go", 10⟩) 1,
        .enter (some ⟨100, "a.go", 10⟩) 2] = .ok (c, log) ∧
      (c.entryTime 0).getD [] = [1] ++ [2] ∧ (c.timeSpent 0).getD 0 = 0 :=
    ⟨_, _, rfl, rfl, rfl⟩
  obtain ⟨c1, hX, -⟩ := Exit_spec_ok c 0 5 [1] 2 hst
  obtain ⟨st, e, hst2, -, hfit⟩ :=
    (C9_time_only_on_exit c).2.2.2 _ log 0 5 c1 hrun (by decide) hX
  rw [hst] at hst2
  have he : [2] = [e] := List.append_inj_right' hst2 rfl
  have he2 : e = 2 := by cases he; rfl
  subst he2
  rw [ht] at hfit
  obtain ⟨h1, h2⟩ := hfit (by decide)
  exact ⟨c, log, c1, hrun, hX, hst, ht, h1, by rw [ht]; exact h2⟩

/-- Counterexample to C9 as stated: the readings 0, 0, 2^62, 2^62 are non-decreasing, the
first `Exit` leaves accumulated time 2^62, and the second `Exit`, whose increment is
2^62 - 0, leaves -2^63: the accumulated time has decreased. -/
theorem C9_time_decreases_counterexample :
    ∃ c log c1, runOps Init [.enter (some ⟨100, "a.go", 10⟩) 0,
        .enter (some ⟨100, "a.go", 10⟩) 0, .exit 0 (2 ^ 62)] = .ok (c, log) ∧
      Exit (some c) 0 (2 ^ 62) = .ok c1 ∧
      (c.entryTime 0).getD [] = [0] ∧
      (c.timeSpent 0).getD 0 = 2 ^ 62 ∧
      (c1.timeSpent 0).getD 0 = -(2 ^ 63) ∧
      (c1.timeSpent 0).getD 0 < (c.timeSpent 0).getD 0 := by
  refine ⟨_, _, _, rfl, rfl, ?_, ?_, ?_, ?_⟩ <;> decide

/-! ## The table of Finalize -/

theorem buildTable_spec (c : Context) (iter : List (Callsite × Handle)) :
    ∀ tbl : TimedCallsites, (∀ e ∈ iter, (0 : Int) ≤ e.2 ∧ e.2 < (tbl.length : Int)) →
      ∃ out, buildTable c iter tbl = .ok out ∧ out.length = tbl.length ∧
        (∀ i : Nat, (∀ e ∈ iter, e.2 ≠ (i : Int)) → out[i]? = tbl[i]?) ∧
        ((iter.map Prod.snd).Nodup → ∀ e ∈ iter, out[e.2.toNat]? = some (timed c e)) := by
  induction iter with
  | nil =>
    intro tbl _
    exact ⟨tbl, rfl, rfl, fun _ _ => rfl, fun _ e he => by cases he⟩
  | cons e0 rest ih =>
    intro tbl hrange
    obtain ⟨s, h⟩ := e0
    have hh : (0 : Int) ≤ h ∧ h < (tbl.length : Int) := hrange (s, h) (List.mem_cons_self _ _)
    have hlt : h.toNat < tbl.length := by
      unfold Handle at *
      omega
    have hrest : ∀ e ∈ rest, (0 : Int) ≤ e.2 ∧
        e.2 < ((tbl.set h.toNat (timed c (s, h))).length : Int) := by
      intro e he
      rw [List.length_set]
      exact hrange e (List.mem_cons_of_mem _ he)
    obtain ⟨out, hb, hlen, hframe, hval⟩ := ih (tbl.set h.toNat (timed c (s, h))) hrest
    refine ⟨out, ?_, ?_, ?_, ?_⟩
    · simp only [buildTable, hh, and_self, if_true]
      exact hb
    · rw [hlen, List.length_set]
    · intro i hi
      have hne : h ≠ (i : Int) := hi (s, h) (List.mem_cons_self _ _)
      rw [hframe i (fun e he => hi e (List.mem_cons_of_mem _ he))]
      apply List.getElem?_set_ne
      unfold Handle at *
      omega
    · intro hnd e he
      simp only [List.map_cons, List.nodup_cons] at hnd
      rcases List.mem_cons.1 he with rfl | he2
      · have hfr := hframe h.toNat (by
          intro e he heq
          apply hnd.1
          have : e.2 = h := by
            have h1 : @Eq Int e.2 (h.toNat : Int) := heq
            have h2 : @Eq Int e.2 h := by omega
            exact h2
          rw [← this]
          exact List.mem_map.2 ⟨e, he, rfl⟩)
        rw [hfr]
        exact List.getElem?_set_self hlt
      · exact hval hnd.2 e he2

theorem denseFrom_nodup (m : List (Callsite × Handle)) :
    ∀ k : Int, denseFrom k m → (m.map Prod.snd).Nodup := by
  induction m with
  | nil => intro k _; simp
  | cons e rest ih =>
    intro k hd
    obtain ⟨k1, v1⟩ := e
    have hmem := denseFrom_mem rest v1
    simp only [denseFrom] at hd
    obtain ⟨h1, h2⟩ := hd
    replace h1 : @Eq Int v1 k := h1
    simp only [List.map_cons, List.nodup_cons]
    refine ⟨?_, ih (k + 1) h2⟩
    intro hin
    obtain ⟨e, he, heq⟩ := List.mem_map.1 hin
    have := (hmem (k + 1) h2).1 ⟨e.1, by rw [← heq]; exact he⟩
    omega

theorem buildTable_registry (c : Context) (hok : RegistryOk c)
    (iter : List (Callsite × Handle)) (hiter : iter.Perm c.handles) :
    buildTable c iter (List.replicate c.handles.length TimedCallsite.zero) =
      .ok (c.handles.map (timed c)) := by
  have hrange : ∀ e ∈ iter, (0 : Int) ≤ e.2 ∧
      e.2 < ((List.replicate c.handles.length TimedCallsite.zero).length : Int) := by
    intro e he
    rw [List.length_replicate]
    have := (denseFrom_mem c.handles e.2 0 hok.1).1 ⟨e.1, hiter.mem_iff.1 he⟩
    unfold Handle at *
    omega
  obtain ⟨out, hb, hlen, -, hval⟩ := buildTable_spec c iter _ hrange
  rw [List.length_replicate] at hlen
  have hnd : (iter.map Prod.snd).Nodup :=
    ((hiter.map Prod.snd).nodup_iff).2 (denseFrom_nodup c.handles 0 hok.1)
  rw [hb]
  congr 1
  apply List.ext_getElem?
  intro i
  by_cases hi : i < c.handles.length
  · have hsnd := denseFrom_get c.handles 0 hok.1 i hi
    have hmem : c.handles.get ⟨i, hi⟩ ∈ iter := hiter.mem_iff.2 (List.get_mem _ _ _)
    have hv := hval hnd _ hmem
    have htn : (c.handles.get ⟨i, hi⟩).2.toNat = i := by
      have : @Eq Int (c.handles.get ⟨i, hi⟩).2 (i : Int) := by rw [hsnd]; omega
      rw [this]; rfl
    rw [htn] at hv
    rw [hv, List.getElem?_map, List.getElem?_eq_getElem hi]
    rfl
  · rw [List.getElem?_eq_none (by omega), List.getElem?_eq_none (by simp; omega)]

/-! ## C10: order and coverage of the report -/

theorem sortInterface_lawful :
    TimedCallsites.sortInterface.Lawful (fun t : TimedCallsites => t)
      (fun a b : TimedCallsite => decide (a.timeSpent > b.timeSpent)) where
  len := fun _ => rfl
  less := by
    intro t i j x y hx hy
    show TimedCallsites.Less t i j = _
    simp only [TimedCallsites.Less, TimedCallsites.index, Int.toNat_ofNat] at *
    rw [if_neg (by omega), if_neg (by omega)]
    simp only [hx, hy]
  swap := by
    intro t i j x y hx hy
    refine ⟨(t.set j x).set i y, ?_, rfl⟩
    show TimedCallsites.Swap t i j = _
    simp only [TimedCallsites.Swap, TimedCallsites.index, Int.toNat_ofNat] at *
    rw [if_neg (by omega), if_neg (by omega)]
    simp only [hx, hy]
  irrefl := by intro x; simp
  trans := by
    intro x y z h1 h2
    simp only [gt_iff_lt, decide_eq_true_eq] at *
    omega
  negTrans := by
    intro x y z h1 h2
    simp only [gt_iff_lt, decide_eq_false_iff_not, not_lt] at *
    omega

theorem getElem?_append_length {β : Type} (A : List β) (x : β) (B : List β) :
    (A ++ x :: B)[A.length]? = some x := by
  induction A with
  | nil => simp
  | cons a A ih => simpa using ih

theorem getElem?_append_length_succ {β : Type} (A : List β) (x y : β) (B : List β) :
    (A ++ x :: y :: B)[A.length + 1]? = some y := by
  induction A with
  | nil => simp
  | cons a A ih => simpa using ih

theorem set_set_append_length {β : Type} (A : List β) (x y : β) (B : List β) :
    ((A ++ x :: y :: B).set A.length y).set (A.length + 1) x = A ++ y :: x :: B := by
  induction A with
  | nil => rfl
  | cons a A ih => simp [ih]

theorem lt_asymm_of_lawful {α β : Type} {I : Interface α} {view : α → List β}
    {lt : β → β → Bool} (hI : I.Lawful view lt) (x y : β) (h : lt x y = true) :
    lt y x = false := by
  cases hyx : lt y x with
  | false => rfl
  | true =>
    have := hI.trans x y x h hyx
    rw [hI.irrefl x] at this
    cases this

theorem insertionInner_succ {α : Type} (I : Interface α) (k : Nat) (data : α) :
    insertionInner I 0 (k + 1) data =
      match I.Less data ((k : Int) + 1) (k : Int) with
      | .error e => .error e
      | .ok false => .ok data
      | .ok true =>
        match I.Swap data ((k : Int) + 1) (k : Int) with
        | .error e => .error e
        | .ok data1 => insertionInner I 0 k data1 := by
  have h1 : (0 : Int) + ((k + 1 : Nat) : Int) = (k : Int) + 1 := by omega
  have h2 : (k : Int) + 1 - 1 = (k : Int) := by omega
  rw [insertionInner, h1, h2]

theorem insertionInner_spec {α β : Type} (I : Interface α) (view : α → List β)
    (lt : β → β → Bool) (hI : I.Lawful view lt) (y : β) (R : List β) :
    ∀ (k : Nat) (data : α) (A B : List β), A.length = k → view data = A ++ y :: (B ++ R) →
      List.Pairwise (fun p q => lt q p = false) (A ++ B) → (∀ b ∈ B, lt y b = true) →
      ∃ data1 P, insertionInner I 0 k data = .ok data1 ∧ view data1 = P ++ R ∧
        P.Perm (A ++ y :: B) ∧ List.Pairwise (fun p q => lt q p = false) P := by
  intro k
  induction k with
  | zero =>
    intro data A B hA hv hs hB
    have hA0 : A = [] := List.length_eq_zero.1 hA
    subst hA0
    refine ⟨data, y :: B, rfl, by simpa using hv, List.Perm.refl _, ?_⟩
    rw [List.pairwise_cons]
    exact ⟨fun b hb => lt_asymm_of_lawful hI y b (hB b hb), by simpa using hs⟩
  | succ k ih =>
    intro data A B hA hv hs hB
    rcases List.eq_nil_or_concat A with hnil | ⟨A1, x, hAx⟩
    · subst hnil; cases hA
    rw [List.concat_eq_append] at hAx
    subst hAx
    have hA1 : A1.length = k := by simpa using hA
    have hv1 : view data = A1 ++ x :: y :: (B ++ R) := by
      rw [hv]; simp
    have hgx : (view data)[k]? = some x := by
      rw [hv1, ← hA1]; exact getElem?_append_length A1 x _
    have hgy : (view data)[k + 1]? = some y := by
      rw [hv1, ← hA1]; exact getElem?_append_length_succ A1 x y _
    have hless := hI.less data (k + 1) k y x hgy hgx
    rw [Nat.cast_succ] at hless
    rw [insertionInner_succ, hless]
    cases hyx : lt y x with
    | false =>
      refine ⟨data, A1 ++ x :: y :: B, rfl, by rw [hv1]; simp, by simp, ?_⟩
      have hs1 : List.Pairwise (fun p q => lt q p = false) (A1 ++ x :: B) := by
        simpa using hs
      rw [List.pairwise_append] at hs1 ⊢
      obtain ⟨hsA, hsxB, hcross⟩ := hs1
      rw [List.pairwise_cons] at hsxB
      refine ⟨hsA, ?_, ?_⟩
      · rw [List.pairwise_cons, List.pairwise_cons]
        refine ⟨?_, ?_, hsxB.2⟩
        · intro b hb
          rcases List.mem_cons.1 hb with rfl | hb
          · exact hyx
          · exact hsxB.1 b hb
        · intro b hb
          exact lt_asymm_of_lawful hI y b (hB b hb)
      · intro a ha b hb
        rcases List.mem_cons.1 hb with rfl | hb
        · exact hcross a ha b (List.mem_cons_self _ _)
        rcases List.mem_cons.1 hb with rfl | hb
        · exact hI.negTrans b x a hyx (hcross a ha x (List.mem_cons_self _ _))
        · exact hcross a ha b (List.mem_cons_of_mem _ hb)
    | true =>
      obtain ⟨data1, hswap, hview1⟩ := hI.swap data (k + 1) k y x hgy hgx
      rw [Nat.cast_succ] at hswap
      have hv2 : view data1 = A1 ++ y :: ((x :: B) ++ R) := by
        rw [hview1, hv1, ← hA1]
        exact set_set_append_length A1 x y _
      obtain ⟨data2, P, hrun, hvP, hperm, hsorted⟩ := ih data1 A1 (x :: B) hA1 hv2
        (by simpa using hs)
        (by
          intro b hb
          rcases List.mem_cons.1 hb with rfl | hb
          · exact hyx
          · exact hB b hb)
      simp only [hswap]
      refine ⟨data2, P, hrun, hvP, ?_, hsorted⟩
      refine hperm.trans ?_
      simp only [List.append_assoc, List.singleton_append]
      exact List.Perm.append_left _ (List.Perm.swap _ _ _)

theorem insertionOuter_spec {α β : Type} (I : Interface α) (view : α → List β)
    (lt : β → β → Bool) (hI : I.Lawful view lt) :
    ∀ (n : Nat) (data : α) (P R : List β), R.length = n → view data = P ++ R →
      List.Pairwise (fun p q => lt q p = false) P →
      ∃ data1, insertionOuter I 0 n (P.length : Int) data = .ok data1 ∧
        (view data1).Perm (view data) ∧
        List.Pairwise (fun p q => lt q p = false) (view data1) := by
  intro n
  induction n with
  | zero =>
    intro data P R hR hv hs
    have hR0 : R = [] := List.length_eq_zero.1 hR
    subst hR0
    refine ⟨data, rfl, List.Perm.refl _, ?_⟩
    rw [hv, List.append_nil]
    exact hs
  | succ n ih =>
    intro data P R hR hv hs
    cases R with
    | nil => cases hR
    | cons y R1 =>
      have hR1 : R1.length = n := by simpa using hR
      obtain ⟨data1, P1, hrun, hv1, hperm, hs1⟩ :=
        insertionInner_spec I view lt hI y R1 P.length data P [] rfl (by simpa using hv)
          (by simpa using hs) (by intro b hb; cases hb)
      have hlen : ((P.length : Int) + 1) = (P1.length : Int) := by
        have := hperm.length_eq
        simp only [List.length_append, List.length_cons, List.length_nil] at this
        omega
      obtain ⟨data2, hrun2, hperm2, hs2⟩ := ih data1 P1 R1 hR1 hv1 hs1
      have htoNat : ((P.length : Int) - 0).toNat = P.length := by omega
      refine ⟨data2, ?_, ?_, hs2⟩
      · rw [insertionOuter, htoNat, hrun]
        simp only
        rw [hlen]
        exact hrun2
      · refine hperm2.trans ?_
        rw [hv1, hv]
        have : (P ++ y :: R1) = (P ++ [y]) ++ R1 := by simp
        rw [this]
        exact List.Perm.append_right _ (by simpa using hperm)

theorem sortInsertion_contract : SortContract sortInsertion := by
  intro α β I view lt hI a
  have hmain : ∃ a1, sortInsertion α I a = .ok a1 ∧ (view a1).Perm (view a) ∧
      List.Pairwise (fun p q => lt q p = false) (view a1) := by
    unfold sortInsertion insertionSortData
    rw [hI.len a]
    cases hv : view a with
    | nil =>
      refine ⟨a, rfl, by rw [hv], ?_⟩
      rw [hv]; exact List.Pairwise.nil
    | cons x R =>
      have hfuel : (((x :: R).length : Int) - (0 + 1)).toNat = R.length := by
        simp only [List.length_cons]; omega
      rw [hfuel]
      obtain ⟨a1, hrun, hperm, hs⟩ := insertionOuter_spec I view lt hI R.length a [x] R rfl
        (by rw [hv]; rfl) (List.pairwise_singleton _ _)
      refine ⟨a1, ?_, by rw [← hv]; exact hperm, hs⟩
      have h01 : ((0 : Int) + 1) = (([x] : List β).length : Int) := by simp
      rw [h01]
      exact hrun
  obtain ⟨a1, hrun, hperm, hs⟩ := hmain
  refine ⟨a1, hrun, hperm, ?_⟩
  intro i j hij hj
  rw [hI.len a1] at hj
  have hj1 : j < (view a1).length := by omega
  have hi1 : i < (view a1).length := by omega
  have hgj : (view a1)[j]? = some ((view a1)[j]) := List.getElem?_eq_getElem hj1
  have hgi : (view a1)[i]? = some ((view a1)[i]) := List.getElem?_eq_getElem hi1
  rw [hI.less a1 j i _ _ hgj hgi]
  exact congrArg Except.ok ((List.pairwise_iff_getElem.1 hs) i j hi1 hj1 hij)

/-- From the contract of the sort and the requirements on the interface: the sort returns
normally with the same elements, every earlier element not after a later one. -/
theorem sortContract_pairwise (sortSort : SortFn) (hsort : SortContract sortSort)
    {α β : Type} (I : Interface α) (view : α → List β) (lt : β → β → Bool)
    (hI : I.Lawful view lt) (a : α) :
    ∃ a1, sortSort α I a = .ok a1 ∧ (view a1).Perm (view a) ∧
      List.Pairwise (fun p q => lt q p = false) (view a1) := by
  obtain ⟨a1, hrun, hperm, hless⟩ := hsort α β I view lt hI a
  refine ⟨a1, hrun, hperm, ?_⟩
  rw [List.pairwise_iff_getElem]
  intro i j hi hj hij
  have hj1 : (j : Int) < I.Len a1 := by rw [hI.len a1]; omega
  have h1 := hless i j hij hj1
  rw [hI.less a1 j i _ _ (List.getElem?_eq_getElem hj) (List.getElem?_eq_getElem hi)] at h1
  exact Except.ok.inj h1

/-- A sort meeting the contract of `sort.Sort`, run on a slice of type `TimedCallsites`
through its methods `Len`, `Less` and `Swap`, returns normally with the same entries in
non-increasing order of `timeSpent`. -/
theorem sortContract_timed (sortSort : SortFn) (hsort : SortContract sortSort)
    (t : TimedCallsites) :
    ∃ out, sortSort TimedCallsites TimedCallsites.sortInterface t = .ok out ∧ out.Perm t ∧
      List.Pairwise (fun a b : TimedCallsite => b.timeSpent ≤ a.timeSpent) out := by
  obtain ⟨out, hrun, hperm, hs⟩ := sortContract_pairwise sortSort hsort
    TimedCallsites.sortInterface _ _ sortInterface_lawful t
  refine ⟨out, hrun, hperm, ?_⟩
  refine hs.imp ?_
  intro a b hab
  simpa using hab

theorem insertionSort_returns (t : TimedCallsites) :
    sortInsertion TimedCallsites TimedCallsites.sortInterface t = .ok (insertionSort t) := by
  obtain ⟨out, hrun, -, -⟩ := sortContract_timed sortInsertion sortInsertion_contract t
  unfold insertionSort
  rw [hrun]

/-- C10: on every reachable context, for every order in which the map iteration yields the
registry and every library sort meeting the contract of `sort.Sort`, run on the table through
the methods `Len`, `Less` and `Swap` of `TimedCallsites`, `Finalize` returns normally and
the entries it emits are a permutation of the registered call sites, each with the hit count
and accumulated time of its own handle, with exactly one entry per call site and accumulated
time non-increasing from first to last; so when the accumulated times of the sites are
50us, 200us and 10us, the entries are listed in the order 200us, 50us, 10us. -/
theorem C10_report_order (c : Context) (hreach : Reachable c)
    (sortLib : SortFn) (hlib : SortContract sortLib)
    (sortSort : TimedCallsites → TimedCallsites)
    (hdriven : ∀ t : TimedCallsites,
      sortLib TimedCallsites TimedCallsites.sortInterface t = .ok (sortSort t))
    (iter : List (Callsite × Handle)) (hiter : iter.Perm c.handles) :
    ∃ out, Finalize sortSort (some c) iter = .ok (c, out) ∧
      out.Perm (c.handles.map (timed c)) ∧
      (out.map TimedCallsite.callsite).Perm (c.handles.map Prod.fst) ∧
      (out.map TimedCallsite.callsite).Nodup ∧
      (∀ e ∈ out, ∃ h, mapLookup c.handles e.callsite = some h ∧
        e.hits = (c.hits h).getD 0 ∧ e.timeSpent = (c.timeSpent h).getD 0) ∧
      List.Pairwise (fun a b : TimedCallsite => b.timeSpent ≤ a.timeSpent) out ∧
      (c.handles.map (fun e => (c.timeSpent e.2).getD 0) = [50000, 200000, 10000] →
        out.map TimedCallsite.timeSpent = [200000, 50000, 10000]) := by
  have hok := reachable_registryOk c hreach
  have htable := buildTable_registry c hok iter hiter
  obtain ⟨sorted, hrun, hperm, hpw⟩ := sortContract_timed sortLib hlib (c.handles.map (timed c))
  rw [hdriven] at hrun
  obtain rfl : sortSort (c.handles.map (timed c)) = sorted := Except.ok.inj hrun
  have hsites : ((sortSort (c.handles.map (timed c))).map TimedCallsite.callsite).Perm
      (c.handles.map Prod.fst) := by
    have := hperm.map TimedCallsite.callsite
    rw [List.map_map] at this
    exact this
  refine ⟨sortSort (c.handles.map (timed c)), ?_, hperm, hsites, ?_, ?_, hpw, ?_⟩
  · simp only [Finalize, htable]
  · exact (hsites.nodup_iff).2 hok.2.2
  · intro e he
    obtain ⟨r, hr, rfl⟩ := List.mem_map.1 (hperm.mem_iff.1 he)
    exact ⟨r.2, mem_mapLookup_of_nodup c.handles r.1 r.2 hok.2.2 hr, rfl, rfl⟩
  · intro htimes
    have hp2 : ((sortSort (c.handles.map (timed c))).map TimedCallsite.timeSpent).Perm
        [50000, 200000, 10000] := by
      have := hperm.map TimedCallsite.timeSpent
      rw [List.map_map] at this
      rw [← htimes]
      exact this
    have hs1 : List.Sorted (fun a b : Int => b ≤ a)
        ((sortSort (c.handles.map (timed c))).map TimedCallsite.timeSpent) :=
      List.pairwise_map.2 hpw
    have hs2 : List.Sorted (fun a b : Int => b ≤ a) [200000, 50000, 10000] := by
      unfold List.Sorted; decide
    haveI : IsAntisymm Int (fun a b : Int => b ≤ a) := ⟨fun a b hab hba => le_antisymm hba hab⟩
    exact List.eq_of_perm_of_sorted (hp2.trans (by decide)) hs1 hs2

/-- Witness of C10: three call sites with accumulated times 50us, 200us and 10us, reported
from the iteration order C, A, B by the insertion sort of the library run through `Len`,
`Less` and `Swap`. -/
theorem C10_report_order_witness :
    ∃ c log out, runOps Init [.enter (some ⟨100, "a.go", 10⟩) 0, .exit 0 50000,
        .enter (some ⟨200, "b.go", 20⟩) 50000, .exit 1 250000,
        .enter (some ⟨300, "c.go", 30⟩) 250000, .exit 2 260000] = .ok (c, log) ∧
      Finalize insertionSort (some c)
        [(⟨300, "c.go", 30⟩, 2), (⟨100, "a.go", 10⟩, 0), (⟨200, "b.go", 20⟩, 1)] = .ok (c, out) ∧
      out.map TimedCallsite.timeSpent = [200000, 50000, 10000] ∧
      out.map TimedCallsite.callsite =
        [⟨200, "b.go", 20⟩, ⟨100, "a.go", 10⟩, ⟨300, "c.go", 30⟩] := by
  obtain ⟨c, log, hrun, hh, ht, hfin⟩ : ∃ c log, runOps Init [.enter (some ⟨100, "a.go", 10⟩) 0,
        .exit 0 50000, .enter (some ⟨200, "b.go", 20⟩) 50000, .exit 1 250000,
        .enter (some ⟨300, "c.go", 30⟩) 250000, .exit 2 260000] = .ok (c, log) ∧
      c.handles = [(⟨100, "a.go", 10⟩, 0), (⟨200, "b.go", 20⟩, 1), (⟨300, "c.go", 30⟩, 2)] ∧
      c.handles.map (fun e => (c.timeSpent e.2).getD 0) = [50000, 200000, 10000] ∧
      Finalize insertionSort (some c)
        [(⟨300, "c.go", 30⟩, 2), (⟨100, "a.go", 10⟩, 0), (⟨200, "b.go", 20⟩, 1)] =
        .ok (c, [⟨⟨200, "b.go", 20⟩, 1, 200000⟩, ⟨⟨100, "a.go", 10⟩, 1, 50000⟩,
          ⟨⟨300, "c.go", 30⟩, 1, 10000⟩]) :=
    ⟨_, _, rfl, rfl, rfl, rfl⟩
  have hreach : Reachable c := ⟨_, log, hrun, by rw [hh]; decide⟩
  obtain ⟨out, hF, -, -, -, -, -, hex⟩ :=
    C10_report_order c hreach sortInsertion sortInsertion_contract insertionSort
      insertionSort_returns
      [(⟨300, "c.go", 30⟩, 2), (⟨100, "a.go", 10⟩, 0), (⟨200, "b.go", 20⟩, 1)]
      (by rw [hh]; decide)
  have htimes := hex ht
  rw [hF] at hfin
  simp only [Except.ok.injEq, Prod.mk.injEq, true_and] at hfin
  refine ⟨c, log, out, hrun, hF, htimes, ?_⟩
  rw [hfin]
  rfl

/-! ## C12: hit counts of registered handles -/

theorem runOps_hits_mod (h : Handle) (ops : List Op) :
    ∀ (c c2 : Context) (log : List Resolution), runOps c ops = .ok (c2, log) →
      (c.hits h).getD 0 < 2 ^ 64 →
      (c2.hits h).getD 0 = ((c.hits h).getD 0 + enterCount h log) % 2 ^ 64 := by
  induction ops with
  | nil =>
    intro c c2 log hr hlt
    simp only [runOps, Except.ok.injEq, Prod.mk.injEq] at hr
    obtain ⟨rfl, rfl⟩ := hr
    simp only [enterCount, List.countP_nil, Nat.add_zero]
    omega
  | cons op rest ih =>
    intro c c2 log hr hlt
    obtain ⟨c1, log1, log2, hs, hq, rfl⟩ := runOps_cons_inv c c2 op rest log hr
    have e2 : enterCount h (log1 ++ log2) = enterCount h log1 + enterCount h log2 := by
      simp [enterCount, List.countP_append]
    have h1 := step_hits c c1 op log1 h hs
    have hle := step_enterCount_le_one c c1 op log1 h hs
    have hc1 : (c1.hits h).getD 0 = ((c.hits h).getD 0 + enterCount h log1) % 2 ^ 64 := by
      rw [h1]
      split
      · omega
      · unfold wrapUint64; omega
    have hlt1 : (c1.hits h).getD 0 < 2 ^ 64 := by
      rw [hc1]; omega
    rw [ih c1 c2 log2 hq hlt1, hc1, e2]
    omega

theorem step_log_viaEnter (c c1 : Context) (op : Op) (log1 : List Resolution)
    (hs : step c op = .ok (c1, log1)) (hop : op.isPackageLevel = true) :
    ∀ r ∈ log1, r.viaEnter = true := by
  intro r hr
  rcases step_cases c c1 op log1 hs with
    ⟨s, now, rfl, -, rfl⟩ | ⟨h2, now, rfl, -, rfl⟩ | ⟨rfl, -, rfl⟩ | ⟨s, rfl, -, -⟩
  · simp only [List.mem_singleton] at hr
    rw [hr]
  · cases hr
  · cases hr
  · simp [Op.isPackageLevel] at hop

theorem runOps_log_viaEnter (ops : List Op) :
    ∀ (c c2 : Context) (log : List Resolution), runOps c ops = .ok (c2, log) →
      (∀ op ∈ ops, op.isPackageLevel = true) → ∀ r ∈ log, r.viaEnter = true := by
  induction ops with
  | nil =>
    intro c c2 log hr _ r hmem
    simp only [runOps, Except.ok.injEq, Prod.mk.injEq] at hr
    rw [← hr.2] at hmem
    cases hmem
  | cons op rest ih =>
    intro c c2 log hr hpkg r hmem
    obtain ⟨c1, log1, log2, hs, hq, rfl⟩ := runOps_cons_inv c c2 op rest log hr
    rcases List.mem_append.1 hmem with h1 | h2
    · exact step_log_viaEnter c c1 op log1 hs (hpkg op (List.mem_cons_self _ _)) r h1
    · exact ih c1 c2 log2 hq (fun o ho => hpkg o (List.mem_cons_of_mem _ ho)) r h2

theorem firstSeenFrom_mem (l : List Callsite) (s : Callsite) :
    ∀ acc, s ∈ firstSeenFrom acc l → s ∈ acc ∨ s ∈ l := by
  induction l with
  | nil => intro acc h; exact Or.inl h
  | cons a rest ih =>
    intro acc h
    simp only [firstSeenFrom] at h
    rcases ih _ h with h1 | h2
    · split at h1
      · exact Or.inl h1
      · rcases List.mem_append.1 h1 with h3 | h3
        · exact Or.inl h3
        · simp only [List.mem_singleton] at h3
          exact Or.inr (by rw [h3]; exact List.mem_cons_self _ _)
    · exact Or.inr (List.mem_cons_of_mem _ h2)

/-- Every entry of the registry of an execution started by `Init` was handed out by a call
of the execution. -/
theorem runOps_registered_in_log (ops : List Op) (c : Context) (log : List Resolution)
    (hrun : runOps Init ops = .ok (c, log)) (s : Callsite) (h : Handle)
    (hl : mapLookup c.handles s = some h) :
    ∃ r ∈ log, r.callsite = s ∧ r.handle = h := by
  have hkeys := runOps_keys ops Init c log hrun
  have hs : s ∈ c.handles.map Prod.fst :=
    List.mem_map.2 ⟨(s, h), mapLookup_mem _ _ _ hl, rfl⟩
  rw [hkeys] at hs
  rcases firstSeenFrom_mem _ s _ hs with h1 | h2
  · simp [Init] at h1
  · obtain ⟨r, hr, hrs⟩ := List.mem_map.1 h2
    have hlr := runOps_log_lookup ops Init c log hrun r hr
    rw [hrs, hl] at hlr
    exact ⟨r, hr, hrs, (Option.some.inj hlr).symm⟩

/-- C12: in every context reached from `Init` through the package-level calls `Enter`,
`Exit` and `Finalize`, each handle present in the registry was returned by at least one
`Enter`, and its hit count is the number of `Enter` calls that returned it; so the hit count
is >= 1, and the division by hits in `Finalize` is not a division by zero.  The bound on the
number of calls of the execution, below 2^64, is one every run meets; it keeps the uint64
counter from wrapping. -/
theorem C12_registered_handles_hit (ops : List Op) (c : Context) (log : List Resolution)
    (hrun : runOps Init ops = .ok (c, log))
    (hpkg : ∀ op ∈ ops, op.isPackageLevel = true)
    (hlen : ops.length < 2 ^ 64)
    (s : Callsite) (h : Handle) (hl : mapLookup c.handles s = some h) :
    1 ≤ enterCount h log ∧
    (c.hits h).getD 0 = enterCount h log ∧
    1 ≤ (c.hits h).getD 0 ∧
    (c.hits h).getD 0 ≠ 0 := by
  obtain ⟨r, hr, hrs, hrh⟩ := runOps_registered_in_log ops c log hrun s h hl
  have hvia := runOps_log_viaEnter ops Init c log hrun hpkg r hr
  have hpos : 1 ≤ enterCount h log := by
    unfold enterCount
    apply List.countP_pos_iff.2
    exact ⟨r, hr, by simp [hvia, hrh]⟩
  have hmod := runOps_hits_mod h ops Init c log hrun (by simp [Init])
  have h0 : (Init.hits h).getD 0 = 0 := rfl
  rw [h0, Nat.zero_add] at hmod
  have hle := (runOps_hits_le_length ops c log hrun h).2
  have hlt : enterCount h log < 2 ^ 64 := by omega
  rw [Nat.mod_eq_of_lt hlt] at hmod
  refine ⟨hpos, hmod, ?_, ?_⟩ <;> omega

/-- Witness of C12: after two `Enter` calls and one `Exit` at one call site and a
`Finalize`, the registered handle 0 has hit count 2. -/
theorem C12_registered_handles_hit_witness :
    ∃ c log, runOps Init [.enter (some ⟨100, "a.go", 10⟩) 1, .enter (some ⟨100, "a.go", 10⟩) 2,
        .exit 0 5, .finalize] = .ok (c, log) ∧
      mapLookup c.handles ⟨100, "a.go", 10⟩ = some 0 ∧
      (c.hits 0).getD 0 = 2 ∧ 1 ≤ (c.hits 0).getD 0 := by
  have h := C12_registered_handles_hit [.enter (some ⟨100, "a.go", 10⟩) 1,
    .enter (some ⟨100, "a.go", 10⟩) 2, .exit 0 5, .finalize]
  have hw := h _ _ rfl (by decide) (by decide) ⟨100, "a.go", 10⟩ 0 rfl
  exact ⟨_, _, rfl, rfl, hw.2.1, hw.2.2.1⟩

/-! ## C13: Finalize is read-only -/

/-- C13: on every initialised context `Finalize` leaves the context exactly as it was,
whether it returns or panics: the registry, `handleCount`, the hit counts, the accumulated
times and the stacks are unchanged, no map loses or gains a key.  So a second `Finalize`
produces the same report entries as the first; on a reachable context it does so whatever
the orders in which the two calls iterate over the registry map. -/
theorem C13_finalize_read_only (c : Context) (sortSort : TimedCallsites → TimedCallsites)
    (iter : List (Callsite × Handle)) :
    (∀ c1 out, Finalize sortSort (some c) iter = .ok (c1, out) →
      c1 = c ∧ c1.handles = c.handles ∧ c1.handleCount = c.handleCount ∧
      c1.hits = c.hits ∧ c1.timeSpent = c.timeSpent ∧ c1.entryTime = c.entryTime ∧
      Finalize sortSort (some c1) iter = .ok (c1, out)) ∧
    (∀ p, Finalize sortSort (some c) iter = .error p → p.context = some c) ∧
    (Reachable c → ∀ iter1 iter2 : List (Callsite × Handle),
      iter1.Perm c.handles → iter2.Perm c.handles →
      ∃ out, Finalize sortSort (some c) iter1 = .ok (c, out) ∧
        Finalize sortSort (some c) iter2 = .ok (c, out)) := by
  refine ⟨?_, ?_, ?_⟩
  · intro c1 out hF
    have hc := Finalize_context sortSort c c1 iter out hF
    subst hc
    exact ⟨rfl, rfl, rfl, rfl, rfl, rfl, hF⟩
  · intro p hp
    unfold Finalize at hp
    simp only at hp
    split at hp
    · cases hp; rfl
    · cases hp
  · intro hreach iter1 iter2 h1 h2
    have hok := reachable_registryOk c hreach
    refine ⟨sortSort (c.handles.map (timed c)), ?_, ?_⟩
    · simp only [Finalize, buildTable_registry c hok iter1 h1]
    · simp only [Finalize, buildTable_registry c hok iter2 h2]

/-- Witness of C13: after intervals at two call sites, two calls of `Finalize` that iterate
over the registry in opposite orders return the same entries and leave the context. -/
theorem C13_finalize_read_only_witness :
    ∃ c log out, runOps Init [.enter (some ⟨100, "a.go", 10⟩) 0, .exit 0 50,
        .enter (some ⟨200, "b.go", 20⟩) 60, .exit 1 260] = .ok (c, log) ∧
      Finalize insertionSort (some c) [(⟨100, "a.go", 10⟩, 0), (⟨200, "b.go", 20⟩, 1)]
        = .ok (c, out) ∧
      Finalize insertionSort (some c) [(⟨200, "b.go", 20⟩, 1), (⟨100, "a.go", 10⟩, 0)]
        = .ok (c, out) ∧
      out.map TimedCallsite.timeSpent = [200, 50] := by
  obtain ⟨c, log, hrun, hh, hfin⟩ : ∃ c log, runOps Init [.enter (some ⟨100, "a.go", 10⟩) 0,
        .exit 0 50, .enter (some ⟨200, "b.go", 20⟩) 60, .exit 1 260] = .ok (c, log) ∧
      c.handles = [(⟨100, "a.go", 10⟩, 0), (⟨200, "b.go", 20⟩, 1)] ∧
      Finalize insertionSort (some c) [(⟨100, "a.go", 10⟩, 0), (⟨200, "b.go", 20⟩, 1)] =
        .ok (c, [⟨⟨200, "b.go", 20⟩, 1, 200⟩, ⟨⟨100, "a.go", 10⟩, 1, 50⟩]) :=
    ⟨_, _, rfl, rfl, rfl⟩
  have hreach : Reachable c := ⟨_, log, hrun, by rw [hh]; decide⟩
  obtain ⟨out, h1, h2⟩ := (C13_finalize_read_only c insertionSort []).2.2 hreach
    [(⟨100, "a.go", 10⟩, 0), (⟨200, "b.go", 20⟩, 1)]
    [(⟨200, "b.go", 20⟩, 1), (⟨100, "a.go", 10⟩, 0)]
    (by rw [hh]) (by rw [hh]; decide)
  rw [h1] at hfin
  simp only [Except.ok.injEq, Prod.mk.injEq, true_and] at hfin
  exact ⟨c, log, out, hrun, h1, h2, by rw [hfin]; rfl⟩

/-! ## C14: use before Init -/

/-- C14: when `Init` has not been called (the package variable is nil), `Enter` panics
whatever the caller lookup reports, `Exit(h)` panics for every handle h and `Finalize`
panics; none of them returns normally, and the package variable is still nil afterwards. -/
theorem C14_uninitialised_use_panics (caller : Option Callsite) (h : Handle) (now : Int)
    (sortSort : TimedCallsites → TimedCallsites) (iter : List (Callsite × Handle)) :
    (∃ p, Enter none caller now = .error p ∧ p.context = none) ∧
    (∀ s, Enter none (some s) now = .error ⟨.nilPointer, none⟩) ∧
    Exit none h now = .error ⟨.nilPointer, none⟩ ∧
    Finalize sortSort none iter = .error ⟨.nilPointer, none⟩ ∧
    (∀ r, Enter none caller now ≠ .ok r) ∧
    (∀ r, Exit none h now ≠ .ok r) ∧
    (∀ r, Finalize sortSort none iter ≠ .ok r) := by
  refine ⟨?_, fun _ => rfl, rfl, rfl, ?_, ?_, ?_⟩
  · cases caller with
    | none => exact ⟨_, rfl, rfl⟩
    | some s => exact ⟨_, rfl, rfl⟩
  · intro r hr
    cases caller <;> cases hr
  · intro r hr
    cases hr
  · intro r hr
    cases hr

/-! ## C15: the caller lookup fails -/

/-- C15: when the caller lookup of `Enter` reports failure, `Enter` panics with
"Unable to identify caller" and leaves the package variable as it was: on an initialised
context the registry, `handleCount`, the hit counts, the accumulated times and the stacks
are those of before the call. -/
theorem C15_caller_failure_registers_nothing (context : Option Context) (now : Int) :
    Enter context none now = .error ⟨.unableToIdentifyCaller, context⟩ ∧
    (∀ r, Enter context none now ≠ .ok r) ∧
    (∀ c p, context = some c → Enter context none now = .error p →
      p.panic = .unableToIdentifyCaller ∧
      ∃ c1, p.context = some c1 ∧ c1.handles = c.handles ∧ c1.handleCount = c.handleCount ∧
        c1.hits = c.hits ∧ c1.timeSpent = c.timeSpent ∧ c1.entryTime = c.entryTime) := by
  refine ⟨rfl, ?_, ?_⟩
  · intro r hr
    cases hr
  · intro c p hc hp
    subst hc
    have : p = ⟨.unableToIdentifyCaller, some c⟩ := by
      have h1 : Enter (some c) none now = .error ⟨.unableToIdentifyCaller, some c⟩ := rfl
      rw [h1] at hp
      cases hp
      rfl
    subst this
    exact ⟨rfl, c, rfl, rfl, rfl, rfl, rfl, rfl⟩

/-- Witness of C15: a failed caller lookup after one `Enter` leaves the one registered call
site, `handleCount` 1 and the hit count 1 of handle 0. -/
theorem C15_caller_failure_witness :
    ∃ c p, Enter (some Init) (some ⟨100, "a.go", 10⟩) 1 = .ok (c, 0) ∧
      Enter (some c) none 2 = .error p ∧ p.panic = .unableToIdentifyCaller ∧
      ∃ c1, p.context = some c1 ∧ c1.handles = [(⟨100, "a.go", 10⟩, 0)] ∧
        c1.handleCount = 1 ∧ c1.hits 0 = some 1 ∧ c1.entryTime 0 = some [1] := by
  obtain ⟨c, hE, hh, hn, hhits, hst⟩ : ∃ c, Enter (some Init) (some ⟨100, "a.go", 10⟩) 1
      = .ok (c, 0) ∧ c.handles = [(⟨100, "a.go", 10⟩, 0)] ∧ c.handleCount = 1 ∧
      c.hits 0 = some 1 ∧ c.entryTime 0 = some [1] := ⟨_, rfl, rfl, rfl, rfl, rfl⟩
  obtain ⟨hp, c1, hc1, e1, e2, e3, -, e5⟩ :=
    (C15_caller_failure_registers_nothing (some c) 2).2.2 c _ rfl rfl
  exact ⟨c, _, hE, rfl, hp, c1, hc1, by rw [e1, hh], by rw [e2, hn], by rw [e3, hhits],
    by rw [e5, hst]⟩

/-! ## C16: the table of Finalize is written safely and completely -/

/-- C16: in every reachable context each handle stored in the registry satisfies
0 <= handle < len(registry); so, whatever the order of the map iteration, no write
`callsites[handle]` of `Finalize` is out of range and the first loop does not panic; every
slot of the table is written exactly once; and at the end of the loop each slot holds the
entry that was written to it, the table being the entries of the registered call sites in
the order of their handles. -/
theorem C16_table_safe_and_complete (c : Context) (hreach : Reachable c)
    (iter : List (Callsite × Handle)) (hiter : iter.Perm c.handles) :
    (∀ (s : Callsite) (h : Int), mapLookup c.handles s = some h →
      0 ≤ h ∧ h < (c.handles.length : Int)) ∧
    (∀ e ∈ iter, (0 : Int) ≤ e.2 ∧ e.2 < (c.handles.length : Int)) ∧
    buildTable c iter (List.replicate c.handles.length TimedCallsite.zero)
      = .ok (c.handles.map (timed c)) ∧
    (∀ k : Nat, k < c.handles.length → (iter.map Prod.snd).count (k : Int) = 1) ∧
    (∀ e ∈ iter, (c.handles.map (timed c))[e.2.toNat]? = some (timed c e)) := by
  have hok := reachable_registryOk c hreach
  have hrange : ∀ (s : Callsite) (h : Int), (s, h) ∈ c.handles →
      0 ≤ h ∧ h < (c.handles.length : Int) := by
    intro s h hm
    have := (denseFrom_mem c.handles h 0 hok.1).1 ⟨s, hm⟩
    omega
  have hnd : (iter.map Prod.snd).Nodup :=
    ((hiter.map Prod.snd).nodup_iff).2 (denseFrom_nodup c.handles 0 hok.1)
  have htable := buildTable_registry c hok iter hiter
  refine ⟨?_, ?_, htable, ?_, ?_⟩
  · intro s h hl
    exact hrange s h (mapLookup_mem _ _ _ hl)
  · intro e he
    exact hrange e.1 e.2 (hiter.mem_iff.1 he)
  · intro k hk
    apply List.count_eq_one_of_mem hnd
    obtain ⟨s, hs⟩ := (denseFrom_mem c.handles (k : Int) 0 hok.1).2 (by omega)
    exact List.mem_map.2 ⟨(s, (k : Int)), hiter.mem_iff.2 hs, rfl⟩
  · intro e he
    have hr : ∀ e ∈ iter, (0 : Int) ≤ e.2 ∧
        e.2 < ((List.replicate c.handles.length TimedCallsite.zero).length : Int) := by
      intro e he
      rw [List.length_replicate]
      exact hrange e.1 e.2 (hiter.mem_iff.1 he)
    obtain ⟨out, hb, -, -, hval⟩ := buildTable_spec c iter _ hr
    rw [htable] at hb
    cases hb
    exact hval hnd e he

/-- Witness of C16: with three registered call sites and the iteration order C, A, B the
loop writes slots 2, 0, 1 and returns the table A, B, C. -/
theorem C16_table_safe_and_complete_witness :
    ∃ c log, runOps Init [.enter (some ⟨100, "a.go", 10⟩) 0, .exit 0 50,
        .enter (some ⟨200, "b.go", 20⟩) 60, .enter (some ⟨300, "c.go", 30⟩) 70] = .ok (c, log) ∧
      buildTable c [(⟨300, "c.go", 30⟩, 2), (⟨100, "a.go", 10⟩, 0), (⟨200, "b.go", 20⟩, 1)]
          (List.replicate 3 TimedCallsite.zero)
        = .ok [⟨⟨100, "a.go", 10⟩, 1, 50⟩, ⟨⟨200, "b.go", 20⟩, 1, 0⟩, ⟨⟨300, "c.go", 30⟩, 1, 0⟩] := by
  obtain ⟨c, log, hrun, hh, hmap⟩ : ∃ c log, runOps Init [.enter (some ⟨100, "a.go", 10⟩) 0,
        .exit 0 50, .enter (some ⟨200, "b.go", 20⟩) 60, .enter (some ⟨300, "c.go", 30⟩) 70]
        = .ok (c, log) ∧
      c.handles = [(⟨100, "a.go", 10⟩, 0), (⟨200, "b.go", 20⟩, 1), (⟨300, "c.go", 30⟩, 2)] ∧
      c.handles.map (timed c) =
        [⟨⟨100, "a.go", 10⟩, 1, 50⟩, ⟨⟨200, "b.go", 20⟩, 1, 0⟩, ⟨⟨300, "c.go", 30⟩, 1, 0⟩] :=
    ⟨_, _, rfl, rfl, rfl⟩
  have hreach : Reachable c := ⟨_, log, hrun, by rw [hh]; decide⟩
  have h := (C16_table_safe_and_complete c hreach
    [(⟨300, "c.go", 30⟩, 2), (⟨100, "a.go", 10⟩, 0), (⟨200, "b.go", 20⟩, 1)]
    (by rw [hh]; decide)).2.2.1
  rw [hmap, hh] at h
  exact ⟨c, log, hrun, h⟩

/-! ## C17: a failing Exit changes nothing -/

/-- C17: when `Exit(handle)` panics on an initialised context, the stack of the handle was
empty (absent or of length 0) and the context is left exactly as it was before the call:
the registry, `handleCount`, and the hit-count, accumulated-time and stack maps, their key
sets included. -/
theorem C17_failing_exit_atomic (c : Context) (h : Handle) (now : Int) :
    ((c.entryTime h).getD [] = [] → Exit (some c) h now = .error ⟨.sliceBounds, some c⟩) ∧
    (∀ p, Exit (some c) h now = .error p →
      (c.entryTime h).getD [] = [] ∧ p.panic = .sliceBounds ∧ p.context = some c) := by
  refine ⟨Exit_spec_err c h now, ?_⟩
  intro p hp
  rcases List.eq_nil_or_concat ((c.entryTime h).getD []) with hnil | ⟨st, e, hst⟩
  · rw [Exit_spec_err c h now hnil] at hp
    cases hp
    exact ⟨hnil, rfl, rfl⟩
  · rw [List.concat_eq_append] at hst
    obtain ⟨c1, hx, -⟩ := Exit_spec_ok c h now st e hst
    rw [hx] at hp
    cases hp

/-- Witness of C17: `Exit(3)` on the fresh context panics and leaves the fresh context, in
which handle 3 has no stack and no accumulated time. -/
theorem C17_failing_exit_witness :
    Exit (some Init) 3 7 = .error ⟨.sliceBounds, some Init⟩ ∧
    Init.entryTime 3 = none ∧ Init.timeSpent 3 = none :=
  ⟨(C17_failing_exit_atomic Init 3 7).1 rfl, rfl, rfl⟩

/-! ## C18: per-handle isolation -/

theorem replay_append (l1 l2 : List (Bool × Int)) :
    ∀ s : List Int × Int, replay s (l1 ++ l2) = replay (replay s l1) l2 := by
  induction l1 with
  | nil => intro s; rfl
  | cons ev rest ih =>
    intro s
    obtain ⟨st, t⟩ := s
    obtain ⟨b, now⟩ := ev
    cases b with
    | true =>
      show replay (st ++ [now], t) (rest ++ l2) = replay (replay (st ++ [now], t) rest) l2
      exact ih _
    | false =>
      show replay (st.dropLast, wrapInt64 (t + wrapInt64 (now - st.getLastD 0))) (rest ++ l2)
        = replay (replay (st.dropLast, wrapInt64 (t + wrapInt64 (now - st.getLastD 0))) rest) l2
      exact ih _

theorem step_replay (c c1 : Context) (op : Op) (log1 : List Resolution) (h : Handle)
    (hs : step c op = .ok (c1, log1)) :
    ((c1.entryTime h).getD [], (c1.timeSpent h).getD 0) =
      replay ((c.entryTime h).getD [], (c.timeSpent h).getD 0) (opEvents h op log1) := by
  rcases step_cases c c1 op log1 hs with
    ⟨s, now, rfl, hE, rfl⟩ | ⟨h2, now, rfl, hX, rfl⟩ | ⟨rfl, rfl, rfl⟩ | ⟨s, rfl, rfl, rfl⟩
  · obtain ⟨c2, hE2, -, -, -, ht, hst⟩ := Enter_spec c s now
    rw [hE2] at hE
    cases hE
    rw [hst, ht]
    by_cases hh : h = (c.HandleFromCallsite s.pc s.file s.line).2
    · subst hh
      simp [store_same, opEvents, enterCount, replay]
    · have hh2 : ¬ (c.HandleFromCallsite s.pc s.file s.line).2 = h := fun e => hh e.symm
      simp [store_other _ _ _ _ hh, opEvents, enterCount, hh2, replay]
  · obtain ⟨st, e, hst, -, -, -, hst1, ht⟩ := Exit_ok_inv c c1 h2 now hX
    rw [hst1, ht]
    by_cases hh : h = h2
    · subst hh
      simp [store_same, opEvents, replay, hst]
    · have hh2 : ¬ h2 = h := fun e => hh e.symm
      simp [store_other _ _ _ _ hh, opEvents, hh2, replay]
  · simp [opEvents, replay]
  · simp [opEvents, replay, (hfc_frame c s).2.2, (hfc_frame c s).2.1]

theorem runOps_replay (h : Handle) (ops : List Op) :
    ∀ (c c2 : Context) (log : List Resolution), runOps c ops = .ok (c2, log) →
      ((c2.entryTime h).getD [], (c2.timeSpent h).getD 0) =
        replay ((c.entryTime h).getD [], (c.timeSpent h).getD 0) (eventsOf h c ops) := by
  induction ops with
  | nil =>
    intro c c2 log hr
    simp only [runOps, Except.ok.injEq, Prod.mk.injEq] at hr
    rw [← hr.1]; rfl
  | cons op rest ih =>
    intro c c2 log hr
    obtain ⟨c1, log1, log2, hs, hq, rfl⟩ := runOps_cons_inv c c2 op rest log hr
    have he : eventsOf h c (op :: rest) = opEvents h op log1 ++ eventsOf h c1 rest := by
      simp only [eventsOf, hs]
    rw [he, replay_append, ← step_replay c c1 op log1 h hs]
    exact ih c1 c2 log2 hq

/-- C18: a successful `Exit(h)` changes only the stack and the accumulated time of h: the
registry, `handleCount`, all hit counts and the stack and accumulated time of every other
handle stay as they are.  An `Enter` that returns h changes only the hit count and the stack
of h, and, when the call site is new, adds its registry entry and advances `handleCount`:
all accumulated times, the hit count and stack of every other handle and the registry
entries of the other call sites stay as they are.  Hence the stack and accumulated time of
a handle after an execution are determined by the calls of the execution that concern that
handle, whatever calls for other handles are interleaved with them. -/
theorem C18_per_handle_isolation (c : Context) :
    (∀ (h : Handle) (now : Int) (c1 : Context), Exit (some c) h now = .ok c1 →
      c1.handles = c.handles ∧ c1.handleCount = c.handleCount ∧ c1.hits = c.hits ∧
      ∀ k, k ≠ h → c1.entryTime k = c.entryTime k ∧ c1.timeSpent k = c.timeSpent k) ∧
    (∀ (s : Callsite) (now : Int) (c1 : Context) (h : Handle),
      Enter (some c) (some s) now = .ok (c1, h) →
      c1.timeSpent = c.timeSpent ∧
      (∀ k, k ≠ h → c1.hits k = c.hits k ∧ c1.entryTime k = c.entryTime k) ∧
      (∀ s2 h2, mapLookup c.handles s2 = some h2 → mapLookup c1.handles s2 = some h2) ∧
      (mapLookup c.handles s ≠ none →
        c1.handles = c.handles ∧ c1.handleCount = c.handleCount) ∧
      (mapLookup c.handles s = none →
        c1.handles = c.handles ++ [(s, h)] ∧ h = c.handleCount ∧
        c1.handleCount = wrapInt (c.handleCount + 1))) ∧
    (∀ (h : Handle) (ops : List Op) (c2 : Context) (log : List Resolution),
      runOps c ops = .ok (c2, log) →
      ((c2.entryTime h).getD [], (c2.timeSpent h).getD 0) =
        replay ((c.entryTime h).getD [], (c.timeSpent h).getD 0) (eventsOf h c ops)) ∧
    (∀ (h hB : Handle) (ops opsB : List Op) (cB c2 c2B : Context) (log logB : List Resolution),
      runOps c ops = .ok (c2, log) → runOps cB opsB = .ok (c2B, logB) →
      (c.entryTime h).getD [] = (cB.entryTime hB).getD [] →
      (c.timeSpent h).getD 0 = (cB.timeSpent hB).getD 0 →
      eventsOf h c ops = eventsOf hB cB opsB →
      (c2.entryTime h).getD [] = (c2B.entryTime hB).getD [] ∧
      (c2.timeSpent h).getD 0 = (c2B.timeSpent hB).getD 0) := by
  refine ⟨?_, ?_, ?_, ?_⟩
  · intro h now c1 hX
    obtain ⟨st, e, -, hn, hh, hhits, hst, ht⟩ := Exit_ok_inv c c1 h now hX
    refine ⟨hh, hn, hhits, ?_⟩
    intro k hk
    rw [hst, ht, store_other _ _ _ _ hk, store_other _ _ _ _ hk]
    exact ⟨rfl, rfl⟩
  · intro s now c1 h hE
    obtain ⟨c2, hE2, hn, hh, hhits, ht, hst⟩ := Enter_spec c s now
    rw [hE2] at hE
    simp only [Except.ok.injEq, Prod.mk.injEq] at hE
    obtain ⟨rfl, rfl⟩ := hE
    refine ⟨ht, ?_, ?_, ?_, ?_⟩
    · intro k hk
      rw [hhits, hst, store_other _ _ _ _ hk, store_other _ _ _ _ hk]
      exact ⟨rfl, rfl⟩
    · intro s2 h2 hl
      rw [hh]
      exact hfc_lookup_stable c s s2 h2 hl
    · intro hreg
      cases hl : mapLookup c.handles s with
      | none => exact absurd hl hreg
      | some h0 =>
        rw [hh, hn, hfc_registered c s h0 hl]
        exact ⟨rfl, rfl⟩
    · intro hl
      rw [hh, hn, hfc_fresh c s hl]
      exact ⟨mapStore_of_lookup_none _ _ _ hl, rfl, rfl⟩
  · intro h ops c2 log hr
    exact runOps_replay h ops c c2 log hr
  · intro h hB ops opsB cB c2 c2B log logB hr hrB hst ht hev
    have h1 := runOps_replay h ops c c2 log hr
    have h2 := runOps_replay hB opsB cB c2B logB hrB
    rw [hst, ht, hev, ← h2] at h1
    exact ⟨congrArg Prod.fst h1, congrArg Prod.snd h1⟩

/-- Witness of C18: the interval of call site A from reading 10 to reading 60 leaves A with
50 nanoseconds, run alone (A has handle 0) and interleaved with an interval of call site B
from 5 to 20 (A has handle 1). -/
theorem C18_per_handle_isolation_witness :
    ∃ c2 log c2B logB,
      runOps Init [.enter (some ⟨100, "a.go", 10⟩) 10, .exit 0 60] = .ok (c2, log) ∧
      runOps Init [.enter (some ⟨200, "b.go", 20⟩) 5, .enter (some ⟨100, "a.go", 10⟩) 10,
        .exit 0 20, .exit 1 60] = .ok (c2B, logB) ∧
      (c2.timeSpent 0).getD 0 = (c2B.timeSpent 1).getD 0 ∧
      (c2.timeSpent 0).getD 0 = 50 ∧ (c2B.timeSpent 0).getD 0 = 15 := by
  have h := (C18_per_handle_isolation Init).2.2.2 0 1
    [.enter (some ⟨100, "a.go", 10⟩) 10, .exit 0 60]
    [.enter (some ⟨200, "b.go", 20⟩) 5, .enter (some ⟨100, "a.go", 10⟩) 10,
      .exit 0 20, .exit 1 60] Init
  exact ⟨_, _, _, _, rfl, rfl, (h _ _ _ _ rfl rfl rfl rfl (by decide)).2, rfl, rfl⟩

end Perf
